import Mathlib

/-!
Verification of the bulk-property-creation server's core logic.

The definitions in this file are shallow embeddings of the JavaScript
functions of the repository (`toInternalName`, `parseOptions`,
`extractPropNamesFromJson`, `extractPropsFromJsonWithTokens`,
`extractFormProps`, `paginateHubSpot` and the `/api/fetch-usage-context`
aggregator).  JavaScript strings are modelled as `List Char`, JSON values
as an inductive `Json` type, and the two extraction regexes are compiled
to deterministic matchers (the determinism arguments are given in the
doc comments of the matchers).
-/

namespace BulkProps

/-! ### Character classes -/

/-- ASCII lowercase letter, the class `[a-z]`. -/
def isLowerAlpha (c : Char) : Bool := 97 ≤ c.toNat && c.toNat ≤ 122

/-- ASCII uppercase letter, the class `[A-Z]`. -/
def isUpperAlpha (c : Char) : Bool := 65 ≤ c.toNat && c.toNat ≤ 90

/-- ASCII letter, the class `[a-zA-Z]`. -/
def isAsciiAlpha (c : Char) : Bool := isLowerAlpha c || isUpperAlpha c

/-- ASCII digit, the class `[0-9]`. -/
def isDigitCh (c : Char) : Bool := 48 ≤ c.toNat && c.toNat ≤ 57

/-- The class `[a-z0-9_]` of characters allowed in a HubSpot internal
name (underscore is code point 95). -/
def isNameChar (c : Char) : Bool := isLowerAlpha c || isDigitCh c || c.toNat = 95

/-- JavaScript whitespace: the class `\s` (also the set trimmed by
`String.prototype.trim`): tab, LF, VT, FF, CR, space, NBSP, Ogham space,
the U+2000–U+200A range, line/paragraph separators, narrow NBSP, medium
mathematical space, ideographic space and the BOM. -/
def isJsWs (c : Char) : Bool :=
  (9 ≤ c.toNat && c.toNat ≤ 13) || c.toNat = 32 || c.toNat = 160 ||
  c.toNat = 0x1680 || (0x2000 ≤ c.toNat && c.toNat ≤ 0x200a) ||
  c.toNat = 0x2028 || c.toNat = 0x2029 || c.toNat = 0x202f ||
  c.toNat = 0x205f || c.toNat = 0x3000 || c.toNat = 0xfeff

/-- `String.prototype.toLowerCase`, restricted to the simple case mapping
on ASCII letters.  Every character the sanitizer can keep after its
filtering step is ASCII, so the non-ASCII case mappings are irrelevant to
the properties proved here. -/
def jsToLower (c : Char) : Char :=
  if isUpperAlpha c then Char.ofNat (c.toNat + 32) else c

/-! ### Name Sanitizer (`toInternalName`, src/unnamed/part_000 lines 66-77) -/

/-- `String.prototype.trim`: drop leading and trailing whitespace. -/
def jsTrim (s : List Char) : List Char :=
  ((s.dropWhile isJsWs).reverse.dropWhile isJsWs).reverse

/-- `.replace(/\s+/g, '_')`: each maximal run of whitespace becomes one
underscore.  A whitespace character is dropped while the run continues
and emits the single underscore when the run ends, which replaces each
maximal whitespace run by one `'_'`. -/
def collapseWsUnderscore : List Char → List Char
  | [] => []
  | c :: t =>
    if isJsWs c then
      match t with
      | [] => ['_']
      | c2 :: _ => if isJsWs c2 then collapseWsUnderscore t else '_' :: collapseWsUnderscore t
    else c :: collapseWsUnderscore t

/-- `/^[0-9]/.test(name)`: does the string start with a digit? -/
def startsWithDigit : List Char → Bool
  | c :: _ => isDigitCh c
  | [] => false

/--
`toInternalName(label)`:

```js
let name = label.toLowerCase().trim().replace(/\s+/g, '_').replace(/[^a-z0-9_]/g, '');
if (/^[0-9]/.test(name)) name = 'p_' + name;
return name.slice(0, 250);
```
-/
def toInternalName (label : List Char) : List Char :=
  let name := (collapseWsUnderscore (jsTrim (label.map jsToLower))).filter isNameChar
  let name2 := if startsWithDigit name then 'p' :: '_' :: name else name
  name2.take 250

/-! ### Option List Parser (`parseOptions`, src/unnamed/part_000 lines 102-114) -/

/-- Decimal digits of a natural number, most significant first; the first
argument is structural fuel (any fuel above the digit count gives the
same result). -/
def natDigitsCore : Nat → Nat → List Char → List Char
  | 0, _, acc => acc
  | fuel + 1, n, acc =>
    let d := Char.ofNat (48 + n % 10)
    if n < 10 then d :: acc else natDigitsCore fuel (n / 10) (d :: acc)

def natDigits (n : Nat) : List Char := natDigitsCore (n + 1) n []

/-- The fallback value `option_<i>` used when sanitization yields an
empty string. -/
def optionFallback (i : Nat) : List Char := "option_".data ++ natDigits i

/-- `String.prototype.split(';')`: split into the (possibly empty) pieces
between semicolons. -/
def splitSemi : List Char → List (List Char)
  | [] => [[]]
  | c :: t =>
    if c = ';' then [] :: splitSemi t
    else
      match splitSemi t with
      | piece :: rest => (c :: piece) :: rest
      | [] => [[c]]

structure ChoiceOption where
  label : List Char
  value : List Char
  displayOrder : Nat
  hidden : Bool
deriving DecidableEq, Repr

/--
`parseOptions(optionsStr)`:

```js
if (!optionsStr || !optionsStr.trim()) return [];
return optionsStr.split(';').map(o => o.trim()).filter(Boolean)
  .map((label, i) => ({ label, value: toInternalName(label) || `option_${i}`,
                        displayOrder: i, hidden: false }));
```
-/
def parseOptions (optionsStr : List Char) : List ChoiceOption :=
  if optionsStr.isEmpty || (jsTrim optionsStr).isEmpty then []
  else
    (((splitSemi optionsStr).map jsTrim).filter (fun p => !p.isEmpty)).mapIdx
      (fun i lab =>
        { label := lab
          value := if (toInternalName lab).isEmpty then optionFallback i else toInternalName lab
          displayOrder := i
          hidden := false })

/-! ### JSON values

`axios` hands the route handlers parsed JSON values; the extractors
re-serialize them with `JSON.stringify`.  Numbers are modelled as
integers: fractional or exponent forms add only characters from
`[0-9.eE+-]`, which the extraction regexes treat exactly like the
integer digits (none is a quote, brace or letter run that could complete
a match). -/

inductive Json where
  | null
  | bool (b : Bool)
  | num (n : Int)
  | str (s : List Char)
  | arr (elems : List Json)
  | obj (entries : List (List Char × Json))
deriving Repr

mutual
def beqJson : Json → Json → Bool
  | .null, .null => true
  | .bool a, .bool b => a == b
  | .num a, .num b => a == b
  | .str a, .str b => a == b
  | .arr as, .arr bs => beqJsonList as bs
  | .obj as, .obj bs => beqJsonEntries as bs
  | _, _ => false
def beqJsonList : List Json → List Json → Bool
  | [], [] => true
  | a :: as, b :: bs => beqJson a b && beqJsonList as bs
  | _, _ => false
def beqJsonEntries : List (List Char × Json) → List (List Char × Json) → Bool
  | [], [] => true
  | (k1, v1) :: as, (k2, v2) :: bs => k1 == k2 && beqJson v1 v2 && beqJsonEntries as bs
  | _, _ => false
end

mutual
def beqJson_iff : (a b : Json) → (beqJson a b = true ↔ a = b)
  | .null, b => by cases b <;> simp [beqJson]
  | .bool x, b => by cases b <;> simp [beqJson]
  | .num x, b => by cases b <;> simp [beqJson]
  | .str x, b => by cases b <;> simp [beqJson]
  | .arr as, b => by
    cases b <;> simp [beqJson]
    exact beqJsonList_iff as _
  | .obj kvs, b => by
    cases b <;> simp [beqJson]
    exact beqJsonEntries_iff kvs _
def beqJsonList_iff : (as bs : List Json) → (beqJsonList as bs = true ↔ as = bs)
  | [], [] => by simp [beqJsonList]
  | [], _ :: _ => by simp [beqJsonList]
  | _ :: _, [] => by simp [beqJsonList]
  | a :: as, b :: bs => by
    simp only [beqJsonList, Bool.and_eq_true, List.cons.injEq]
    rw [beqJson_iff a b, beqJsonList_iff as bs]
def beqJsonEntries_iff : (as bs : List (List Char × Json)) →
    (beqJsonEntries as bs = true ↔ as = bs)
  | [], [] => by simp [beqJsonEntries]
  | [], _ :: _ => by simp [beqJsonEntries]
  | _ :: _, [] => by simp [beqJsonEntries]
  | (k1, v1) :: as, (k2, v2) :: bs => by
    simp only [beqJsonEntries, Bool.and_eq_true, List.cons.injEq, Prod.mk.injEq,
      beq_iff_eq]
    rw [beqJson_iff v1 v2, beqJsonEntries_iff as bs]
end

instance : DecidableEq Json := fun a b => decidable_of_iff _ (beqJson_iff a b)

/-! ### JSON.stringify -/

/-- Lowercase hexadecimal digit. -/
def hexDigit (n : Nat) : Char := if n < 10 then Char.ofNat (48 + n) else Char.ofNat (87 + n)

/-- How `JSON.stringify` renders one character inside a string literal:
quote and backslash get a backslash escape, the named control characters
get their two-character escapes, other control characters get a
`\u00XX` escape, and everything else stands for itself. -/
def escChar (c : Char) : List Char :=
  if c = '"' then ['\\', '"']
  else if c = '\\' then ['\\', '\\']
  else if c.toNat = 8 then ['\\', 'b']
  else if c.toNat = 9 then ['\\', 't']
  else if c.toNat = 10 then ['\\', 'n']
  else if c.toNat = 12 then ['\\', 'f']
  else if c.toNat = 13 then ['\\', 'r']
  else if c.toNat < 32 then ['\\', 'u', '0', '0', hexDigit (c.toNat / 16), hexDigit (c.toNat % 16)]
  else [c]

def escStr (s : List Char) : List Char := s.flatMap escChar

/-- Decimal rendering of an integer. -/
def intChars (n : Int) : List Char :=
  if n < 0 then '-' :: natDigits n.natAbs else natDigits n.toNat

mutual
/-- `JSON.stringify`, producing the exact character sequence the
extraction regexes run over (no added whitespace, insertion-ordered
object entries). -/
def stringify : Json → List Char
  | .null => "null".data
  | .bool true => "true".data
  | .bool false => "false".data
  | .num n => intChars n
  | .str s => '"' :: escStr s ++ ['"']
  | .arr es => '[' :: stringifyElems es ++ [']']
  | .obj kvs => '{' :: stringifyEntries kvs ++ ['}']
def stringifyElems : List Json → List Char
  | [] => []
  | [x] => stringify x
  | x :: y :: t => stringify x ++ ',' :: stringifyElems (y :: t)
def stringifyEntries : List (List Char × Json) → List Char
  | [] => []
  | [(k, v)] => '"' :: escStr k ++ '"' :: ':' :: stringify v
  | (k, v) :: e :: t =>
    ('"' :: escStr k ++ '"' :: ':' :: stringify v) ++ ',' :: stringifyEntries (e :: t)
end

/-! ### The structural key-matching regex

`extractPropNamesFromJson` (src/unnamed/part_000 lines 280-288) runs

  /"[a-zA-Z]*[Pp]roperty(?:[Nn]ame)?"\s*:\s*"([a-z][a-z0-9_]*)"/g

over the serialized object.  The regex is compiled to a deterministic
matcher: every quantified class excludes the character the regex
requires next (a letter run can only be followed by the closing quote at
the end of the maximal run, a whitespace run only by the colon, the
captured identifier run only by its closing quote), so backtracking can
never produce a match the maximal-munch matcher misses. -/

/-- Membership of a letter run in `[a-zA-Z]*[Pp]roperty(?:[Nn]ame)?`:
a run of letters belongs to the key language exactly when it ends in
`property` or `Property`, optionally followed by `name` or `Name`. -/
def patSuffix (r : List Char) : Bool :=
  List.isSuffixOf "property".data r || List.isSuffixOf "Property".data r ||
  List.isSuffixOf "propertyname".data r || List.isSuffixOf "propertyName".data r ||
  List.isSuffixOf "Propertyname".data r || List.isSuffixOf "PropertyName".data r

/-- Try to match the full key/value regex at the start of the input.
Returns the captured group and the remaining input after the match. -/
def matchPropAt : List Char → Option (List Char × List Char)
  | '"' :: r =>
    let run := r.takeWhile isAsciiAlpha
    if patSuffix run then
      match r.drop run.length with
      | '"' :: r2 =>
        match r2.dropWhile isJsWs with
        | ':' :: r3 =>
          match r3.dropWhile isJsWs with
          | '"' :: c :: r5 =>
            if isLowerAlpha c then
              match r5.drop (r5.takeWhile isNameChar).length with
              | '"' :: rest => some (c :: r5.takeWhile isNameChar, rest)
              | _ => none
            else none
          | _ => none
        | _ => none
      | _ => none
    else none
  | _ => none

/-- One `re.exec` loop: find the leftmost match at or after the current
position, record the captured group, resume after the match (the
`while ((m = re.exec(str)) !== null)` loop).  The first argument is
structural fuel; any fuel above the input length gives the same
result. -/
def scanCore (mt : List Char → Option (List Char × List Char)) :
    Nat → List Char → List (List Char)
  | 0, _ => []
  | _ + 1, [] => []
  | fuel + 1, c :: t =>
    match mt (c :: t) with
    | some (v, rest) => v :: scanCore mt fuel rest
    | none => scanCore mt fuel t

/-- All captures of the key/value regex over the input, leftmost first,
resuming after each match. -/
def scanProps (s : List Char) : List (List Char) := scanCore matchPropAt (s.length + 1) s

/-! ### The personalization-token regex

`extractPropsFromJsonWithTokens` (src/unnamed/part_000 lines 296-303)
additionally runs `/\{\{[a-z_]+\.([a-z0-9_]+)\}\}/g` over the same
serialized text.  The same determinism argument applies: the source run
`[a-z_]+` can only end at the literal dot, the captured run `[a-z0-9_]+`
only at the closing braces. -/

/-- The class `[a-z_]` of the token source part. -/
def isSrcChar (c : Char) : Bool := isLowerAlpha c || c.toNat = 95

/-- Try to match the token regex at the start of the input. -/
def matchTokAt : List Char → Option (List Char × List Char)
  | '{' :: '{' :: r =>
    let src := r.takeWhile isSrcChar
    if src.isEmpty then none
    else
      match r.drop src.length with
      | '.' :: r2 =>
        let f := r2.takeWhile isNameChar
        if f.isEmpty then none
        else
          match r2.drop f.length with
          | '}' :: '}' :: rest => some (f, rest)
          | _ => none
      | _ => none
  | _ => none

/-- All captures of the token regex over the input, leftmost first,
resuming after each match. -/
def scanToks (s : List Char) : List (List Char) := scanCore matchTokAt (s.length + 1) s

/-! ### The extraction functions -/

/-- `Set.prototype.add`: append unless already present (JS string sets
compare by value; insertion order is kept). -/
def setAdd [DecidableEq α] (l : List α) (x : α) : List α :=
  if x ∈ l then l else l ++ [x]

def setAddAll [DecidableEq α] (l : List α) (xs : List α) : List α := xs.foldl setAdd l

/-- `extractPropNamesFromJson(str)`: the set of captures of the key/value
regex over the string. -/
def extractPropNamesFromJson (s : List Char) : List (List Char) :=
  setAddAll [] (scanProps s)

/-- `extractPropsFromJsonWithTokens(obj)`: key/value captures plus token
captures over `JSON.stringify(obj)`. -/
def extractPropsFromJsonWithTokens (j : Json) : List (List Char) :=
  setAddAll (extractPropNamesFromJson (stringify j)) (scanToks (stringify j))

def extractWorkflowProps (wf : Json) : List (List Char) := extractPropsFromJsonWithTokens wf

def extractEmailProps (email : Json) : List (List Char) := extractPropsFromJsonWithTokens email

def extractListProps (l : Json) : List (List Char) := extractPropNamesFromJson (stringify l)

def extractPipelineProps (p : Json) : List (List Char) := extractPropNamesFromJson (stringify p)

def extractReportProps (r : Json) : List (List Char) := extractPropNamesFromJson (stringify r)

theorem mem_setAdd [DecidableEq α] {l : List α} {x y : α} :
    y ∈ setAdd l x ↔ y ∈ l ∨ y = x := by
  rw [setAdd]
  by_cases h : x ∈ l
  · rw [if_pos h]
    constructor
    · exact Or.inl
    · rintro (hy | rfl) <;> [exact hy; exact h]
  · rw [if_neg h]
    simp

theorem mem_setAddAll [DecidableEq α] {l xs : List α} {y : α} :
    y ∈ setAddAll l xs ↔ y ∈ l ∨ y ∈ xs := by
  induction xs generalizing l with
  | nil => simp [setAddAll]
  | cons x xs ih =>
    rw [setAddAll, List.foldl_cons]
    have := @ih (setAdd l x)
    rw [setAddAll] at this
    rw [this, mem_setAdd]
    simp [or_assoc]

/-! ### Spec-side reference sets for the Reference Extractor claims -/

mutual
/-- Every key/value entry appearing anywhere in a JSON tree. -/
def entriesOf : Json → List (List Char × Json)
  | .obj kvs => entriesOfEntries kvs
  | .arr es => entriesOfList es
  | _ => []
def entriesOfList : List Json → List (List Char × Json)
  | [] => []
  | x :: t => entriesOf x ++ entriesOfList t
def entriesOfEntries : List (List Char × Json) → List (List Char × Json)
  | [] => []
  | (k, v) :: t => (k, v) :: (entriesOf v ++ entriesOfEntries t)
end

/-- The identifier shape from the spec: a lowercase letter followed by
zero or more lowercase letters, digits or underscores. -/
def identShape : List Char → Bool
  | [] => false
  | c :: t => isLowerAlpha c && t.all isNameChar

/-- Modelled from the claim C1 wording: does the key end, case-insensitively
on the whole suffix, in `Property` or `PropertyName`? -/
def endsCaseInsensitive (k : List Char) (suf : List Char) : Bool :=
  List.isSuffixOf suf (k.map jsToLower)

/-- Modelled from the claim C1 wording: the set of string values sitting
under a key that ends case-insensitively in `Property` or `PropertyName`,
with the value of identifier shape. -/
def specC1Claimed (j : Json) : List (List Char) :=
  (entriesOf j).filterMap (fun kv =>
    match kv.2 with
    | .str v =>
      if (endsCaseInsensitive kv.1 "property".data ||
          endsCaseInsensitive kv.1 "propertyname".data) && identShape v then some v
      else none
    | _ => none)

/-- The key condition the code actually implements, read off the regex
and the serialization: the maximal ASCII-letter suffix of the key must
belong to the key language (`patSuffix`), and must either be the whole
key or be immediately preceded by a double-quote character (whose JSON
escape `\"` puts a raw quote directly before the letter run in the
serialized form, letting a match start there). -/
def keyMatchB (k : List Char) : Bool :=
  patSuffix (k.reverse.takeWhile isAsciiAlpha).reverse &&
    (match k.reverse.dropWhile isAsciiAlpha with
     | [] => true
     | c :: _ => c = '"')

/-- All captures of the token regex at every position of the input,
overlapping matches included (used to state what "a placeholder occurs
in the text" means). -/
def tokOcc : List Char → List (List Char)
  | [] => []
  | c :: t =>
    (match matchTokAt (c :: t) with
     | some (f, _) => [f]
     | none => []) ++ tokOcc t

/-! ### C1 and C3 counterexamples (the claims as stated) -/

/-- C1 as stated is false: the regex `"[a-zA-Z]*[Pp]roperty(?:[Nn]ame)?"`
is case-insensitive only on the initial letters of `Property` and `Name`,
not on the whole suffix.  On `\x7b"xPROPERTY":"abc"\x7d` the claimed set
contains `abc` (the key ends case-insensitively in `property`), but the
extractor returns the empty set. -/
theorem structural_matching_claim_false :
    extractPropNamesFromJson
        (stringify (Json.obj [("xPROPERTY".data, Json.str "abc".data)])) = [] ∧
    specC1Claimed (Json.obj [("xPROPERTY".data, Json.str "abc".data)]) =
      ["abc".data] := by
  constructor <;> rfl

/-- C3 as stated is false: the token regex captures `([a-z0-9_]+)`, which
admits field ids that start with a digit, while the claim restricts the
field id to the identifier shape `[a-z][a-z0-9_]*`.  On text containing
the placeholder `contact.0abc` in double braces, the code extracts
`0abc` while the claimed set is empty. -/
theorem token_matching_claim_false :
    "0abc".data ∈ extractPropsFromJsonWithTokens
        (Json.str "hi \x7b\x7bcontact.0abc\x7d\x7d bye".data) ∧
    (tokOcc (stringify (Json.str "hi \x7b\x7bcontact.0abc\x7d\x7d bye".data))).filter
        identShape = [] := by
  constructor
  · decide
  · rfl

/-! ### C3 amended: an exact characterization of the token scan

The scan over the serialized text returns exactly the field ids of the
placeholder occurrences: substrings of the form `(double brace) src . f
(double closing brace)` with `src` a nonempty run of `[a-z_]` and `f` a
nonempty run of `[a-z0-9_]`.  The development below proves the matcher
sound and invertible, shows the `exec` loop misses no occurrence (a
consumed placeholder contains no other match start), and relates the
scan to the positional occurrence predicate. -/

theorem all_takeWhile_self (p : α → Bool) : ∀ l : List α, (l.takeWhile p).all p = true := by
  intro l
  induction l with
  | nil => rfl
  | cons c t ih =>
    rw [List.takeWhile]
    cases hc : p c with
    | true => simp [hc, ih]
    | false => rfl

theorem drop_takeWhile_len (p : α → Bool) :
    ∀ l : List α, l.drop (l.takeWhile p).length = l.dropWhile p := by
  intro l
  induction l with
  | nil => rfl
  | cons c t ih =>
    rw [List.takeWhile, List.dropWhile]
    cases hc : p c with
    | true => simpa using ih
    | false => rfl

theorem takeWhile_append_stop (p : α → Bool) {x : α} (hx : p x = false) :
    ∀ (l y : List α), l.all p = true → (l ++ x :: y).takeWhile p = l := by
  intro l
  induction l with
  | nil =>
    intro y _
    rw [List.nil_append, List.takeWhile, hx]
  | cons c t ih =>
    intro y hl
    rw [List.all_cons, Bool.and_eq_true] at hl
    rw [List.cons_append, List.takeWhile, hl.1]
    simp [ih y hl.2]

/-- Inversion for the token matcher: a successful match fixes the exact
shape of the input. -/
theorem matchTokAt_eq_some {s f rest : List Char} (h : matchTokAt s = some (f, rest)) :
    ∃ src, s = '{' :: '{' :: (src ++ '.' :: (f ++ '}' :: '}' :: rest)) ∧
      src ≠ [] ∧ src.all isSrcChar = true ∧ f ≠ [] ∧ f.all isNameChar = true := by
  unfold matchTokAt at h
  split at h
  · next r =>
    simp only at h
    split at h
    · exact absurd h (by simp)
    · next hne =>
      split at h
      · next r2 hd =>
        split at h
        · exact absurd h (by simp)
        · next hne2 =>
          split at h
          · next rest' hd2 =>
            obtain ⟨hf, hrest⟩ : List.takeWhile isNameChar r2 = f ∧ rest' = rest := by
              simpa using h
            have hdw : r.dropWhile isSrcChar = '.' :: r2 := by
              rw [← drop_takeWhile_len]
              exact hd
            have hdw2 : r2.dropWhile isNameChar = '}' :: '}' :: rest' := by
              rw [← drop_takeWhile_len]
              exact hd2
            have e1 : r.takeWhile isSrcChar ++ '.' :: r2 = r := by
              conv_rhs => rw [← List.takeWhile_append_dropWhile (p := isSrcChar) (l := r)]
              rw [hdw]
            have e2 : f ++ '}' :: '}' :: rest = r2 := by
              conv_rhs => rw [← List.takeWhile_append_dropWhile (p := isNameChar) (l := r2)]
              rw [hdw2, hf, hrest]
            refine ⟨r.takeWhile isSrcChar, ?_, ?_, all_takeWhile_self _ _, ?_, ?_⟩
            · conv_lhs => rw [← e1, ← e2]
            · intro hnil
              exact hne (by simp [hnil])
            · intro hnil
              exact hne2 (by rw [hf, hnil]; rfl)
            · rw [← hf]
              exact all_takeWhile_self _ _
          · exact absurd h (by simp)
      · exact absurd h (by simp)
  · exact absurd h (by simp)

/-- Soundness for the token matcher: at an input of the placeholder
shape, the matcher succeeds and captures the field id. -/
theorem matchTokAt_shape {src f rest : List Char} (h1 : src ≠ [])
    (h2 : src.all isSrcChar = true) (h3 : f ≠ []) (h4 : f.all isNameChar = true) :
    matchTokAt ('{' :: '{' :: (src ++ '.' :: (f ++ '}' :: '}' :: rest))) = some (f, rest) := by
  have ht1 : (src ++ '.' :: (f ++ '}' :: '}' :: rest)).takeWhile isSrcChar = src :=
    takeWhile_append_stop isSrcChar (by decide) src _ h2
  have ht2 : (f ++ '}' :: '}' :: rest).takeWhile isNameChar = f :=
    takeWhile_append_stop isNameChar (by decide) f _ h4
  have hemp : src.isEmpty = false := by
    cases src with
    | nil => exact absurd rfl h1
    | cons a b => rfl
  have hemp2 : f.isEmpty = false := by
    cases f with
    | nil => exact absurd rfl h3
    | cons a b => rfl
  simp only [matchTokAt, ht1, hemp, Bool.false_eq_true, if_false, List.drop_left, ht2,
    hemp2]

theorem matchTokAt_consumes : ∀ (s v rest : List Char),
    matchTokAt s = some (v, rest) → rest.length < s.length := by
  intro s v rest h
  obtain ⟨src, hshape, _, _, _, _⟩ := matchTokAt_eq_some h
  rw [hshape]
  simp
  omega

theorem matchTokAt_ne_brace {c : Char} (hc : c ≠ '{') (t : List Char) :
    matchTokAt (c :: t) = none := by
  unfold matchTokAt
  split
  · next heq =>
    injection heq with hc' _
    exact absurd hc' hc
  · rfl

theorem matchTokAt_second_ne {c : Char} (hc : c ≠ '{') (t : List Char) :
    matchTokAt ('{' :: c :: t) = none := by
  unfold matchTokAt
  split
  · next heq =>
    injection heq with _ heq2
    injection heq2 with hc' _
    exact absurd hc' hc
  · rfl

theorem srcChar_ne_brace {c : Char} (h : isSrcChar c = true) : c ≠ '{' := by
  intro he
  subst he
  exact absurd h (by decide)

theorem nameChar_ne_brace {c : Char} (h : isNameChar c = true) : c ≠ '{' := by
  intro he
  subst he
  exact absurd h (by decide)

theorem tokOcc_cons_none {c : Char} {t : List Char} (h : matchTokAt (c :: t) = none) :
    tokOcc (c :: t) = tokOcc t := by
  simp [tokOcc, h]

theorem tokOcc_append_no_brace :
    ∀ z : List Char, (∀ c ∈ z, c ≠ '{') → ∀ ys, tokOcc (z ++ ys) = tokOcc ys := by
  intro z
  induction z with
  | nil => exact fun _ _ => rfl
  | cons c t ih =>
    intro hz ys
    rw [List.cons_append, tokOcc_cons_none (matchTokAt_ne_brace (hz c (by simp)) _)]
    exact ih (fun x hx => hz x (List.mem_cons_of_mem c hx)) ys

/-- A successful match at the head recurses past the whole consumed
placeholder: no other match can start inside it. -/
theorem tokOcc_cons_some {c : Char} {t f rest : List Char}
    (h : matchTokAt (c :: t) = some (f, rest)) :
    tokOcc (c :: t) = f :: tokOcc rest := by
  obtain ⟨src, hshape, h1, h2, h3, h4⟩ := matchTokAt_eq_some h
  injection hshape with hc ht
  subst hc
  subst ht
  rw [tokOcc, h]
  simp only [List.singleton_append, List.cons.injEq, true_and]
  obtain ⟨s0, src', rfl⟩ : ∃ s0 src', src = s0 :: src' := by
    cases src with
    | nil => exact absurd rfl h1
    | cons a b => exact ⟨a, b, rfl⟩
  rw [List.all_cons, Bool.and_eq_true] at h2
  have hz : ∀ x ∈ (s0 :: src') ++ '.' :: f, x ≠ '{' := by
    intro x hx
    rcases List.mem_append.1 hx with hx1 | hx2
    · rcases List.mem_cons.1 hx1 with rfl | hx3
      · exact srcChar_ne_brace h2.1
      · exact srcChar_ne_brace (by
          have := List.all_eq_true.1 h2.2 x hx3
          simpa using this)
    · rcases List.mem_cons.1 hx2 with rfl | hx3
      · decide
      · exact nameChar_ne_brace (by
          have := List.all_eq_true.1 h4 x hx3
          simpa using this)
  have hm2 : matchTokAt ('{' :: s0 :: (src' ++ '.' :: (f ++ '}' :: '}' :: rest))) = none :=
    matchTokAt_second_ne (srcChar_ne_brace h2.1) _
  rw [show ('{' : Char) :: ((s0 :: src') ++ '.' :: (f ++ '}' :: '}' :: rest)) =
      '{' :: s0 :: (src' ++ '.' :: (f ++ '}' :: '}' :: rest)) from rfl]
  rw [tokOcc_cons_none hm2]
  rw [show s0 :: (src' ++ '.' :: (f ++ '}' :: '}' :: rest)) =
      ((s0 :: src') ++ '.' :: f) ++ '}' :: '}' :: rest from by simp]
  rw [tokOcc_append_no_brace ((s0 :: src') ++ '.' :: f) hz _]
  rw [tokOcc_cons_none (matchTokAt_ne_brace (by decide) _),
    tokOcc_cons_none (matchTokAt_ne_brace (by decide) _)]

theorem tokOcc_suffix_mem : ∀ (pre ys f : List Char), f ∈ tokOcc ys → f ∈ tokOcc (pre ++ ys) := by
  intro pre
  induction pre with
  | nil => exact fun _ _ h => h
  | cons c t ih =>
    intro ys f h
    rw [List.cons_append, tokOcc]
    exact List.mem_append_right _ (ih ys f h)

/-- Written from the amended claim wording: the serialized text contains
a placeholder whose source part is a nonempty run of lowercase letters
and underscores and whose field id part is the nonempty run `f` of
lowercase letters, digits and underscores. -/
def TokOccurs (s f : List Char) : Prop :=
  ∃ pre src suf, s = pre ++ '{' :: '{' :: (src ++ '.' :: (f ++ '}' :: '}' :: suf)) ∧
    src ≠ [] ∧ src.all isSrcChar = true ∧ f ≠ [] ∧ f.all isNameChar = true

theorem mem_tokOcc_iff : ∀ s f : List Char, f ∈ tokOcc s ↔ TokOccurs s f := by
  intro s
  induction s with
  | nil =>
    intro f
    constructor
    · intro h
      simp [tokOcc] at h
    · rintro ⟨pre, src, suf, hshape, -, -, -, -⟩
      have := congrArg List.length hshape
      simp at this
      omega
  | cons c t ih =>
    intro f
    constructor
    · intro hmem
      rw [tokOcc] at hmem
      rcases List.mem_append.1 hmem with hcap | htl
      · cases hmt : matchTokAt (c :: t) with
        | none =>
          rw [hmt] at hcap
          simp at hcap
        | some vr =>
          obtain ⟨v, rest⟩ := vr
          rw [hmt] at hcap
          simp at hcap
          subst hcap
          obtain ⟨src, hshape, h1, h2, h3, h4⟩ := matchTokAt_eq_some hmt
          exact ⟨[], src, rest, by simpa using hshape, h1, h2, h3, h4⟩
      · obtain ⟨pre, src, suf, hshape, h1, h2, h3, h4⟩ := (ih f).1 htl
        exact ⟨c :: pre, src, suf, by rw [List.cons_append, hshape], h1, h2, h3, h4⟩
    · rintro ⟨pre, src, suf, hshape, h1, h2, h3, h4⟩
      cases pre with
      | nil =>
        simp only [List.nil_append] at hshape
        rw [hshape, tokOcc, matchTokAt_shape h1 h2 h3 h4]
        simp
      | cons p pre' =>
        rw [List.cons_append] at hshape
        injection hshape with hc ht
        rw [tokOcc]
        exact List.mem_append_right _ ((ih f).2 ⟨pre', src, suf, ht, h1, h2, h3, h4⟩)

theorem scanCore_fuel {mt : List Char → Option (List Char × List Char)}
    (hmt : ∀ s v rest, mt s = some (v, rest) → rest.length < s.length) :
    ∀ (fuel fuel' : Nat) (s : List Char), s.length < fuel → s.length < fuel' →
      scanCore mt fuel s = scanCore mt fuel' s := by
  intro fuel
  induction fuel with
  | zero => exact fun _ s hs _ => absurd hs (Nat.not_lt_zero _)
  | succ fu ih =>
    intro fuel' s hs hs'
    cases fuel' with
    | zero => exact absurd hs' (Nat.not_lt_zero _)
    | succ fu' =>
      cases s with
      | nil => rfl
      | cons c t =>
        rw [scanCore, scanCore]
        cases hm : mt (c :: t) with
        | none =>
          simp only [List.length_cons] at hs hs'
          exact ih fu' t (by omega) (by omega)
        | some vr =>
          obtain ⟨v, rest⟩ := vr
          have hlt := hmt _ _ _ hm
          simp only [List.length_cons] at hs hs' hlt
          show v :: scanCore mt fu rest = v :: scanCore mt fu' rest
          rw [ih fu' rest (by omega) (by omega)]

theorem scanToks_cons_some {c : Char} {t f rest : List Char}
    (h : matchTokAt (c :: t) = some (f, rest)) :
    scanToks (c :: t) = f :: scanToks rest := by
  have hlt := matchTokAt_consumes _ _ _ h
  simp only [List.length_cons] at hlt
  rw [scanToks, scanCore, h]
  show f :: scanCore matchTokAt (c :: t).length rest = f :: scanToks rest
  rw [scanToks, scanCore_fuel matchTokAt_consumes ((c :: t).length) (rest.length + 1) rest
    (by simp only [List.length_cons]; omega) (by omega)]

theorem scanToks_cons_none {c : Char} {t : List Char} (h : matchTokAt (c :: t) = none) :
    scanToks (c :: t) = scanToks t := by
  rw [scanToks, scanCore, h]
  show scanCore matchTokAt (c :: t).length t = scanToks t
  rw [scanToks, scanCore_fuel matchTokAt_consumes ((c :: t).length) (t.length + 1) t
    (by simp) (by omega)]

/-- The `exec` loop finds exactly the occurrences: skipping past a
consumed placeholder loses no capture. -/
theorem mem_scanToks_iff_tokOcc (s f : List Char) : f ∈ scanToks s ↔ f ∈ tokOcc s := by
  suffices H : ∀ (n : Nat) (s : List Char), s.length ≤ n → ∀ f,
      (f ∈ scanToks s ↔ f ∈ tokOcc s) from H s.length s le_rfl f
  intro n
  induction n with
  | zero =>
    intro s hs f
    rw [List.length_eq_zero.1 (Nat.le_zero.1 hs)]
    rfl
  | succ n ih =>
    intro s hs f
    cases s with
    | nil => rfl
    | cons c t =>
      cases hmt : matchTokAt (c :: t) with
      | none =>
        rw [scanToks_cons_none hmt, tokOcc_cons_none hmt]
        exact ih t (by simp only [List.length_cons] at hs; omega) f
      | some vr =>
        obtain ⟨v, rest⟩ := vr
        rw [scanToks_cons_some hmt, tokOcc_cons_some hmt]
        have hlt := matchTokAt_consumes _ _ _ hmt
        simp only [List.length_cons] at hs hlt
        simp only [List.mem_cons]
        rw [ih rest (by omega) f]

/-- Claim C3 (amended): the token strategy, used for workflow and
marketing-email items, returns the structural captures together with the
token captures over the serialized item, and a field id is a token
capture exactly when the serialized text contains a placeholder of the
form double opening brace, source, dot, field id, double closing brace,
where the source is a nonempty run of lowercase letters and underscores
and the field id is a nonempty run of lowercase letters, digits and
underscores (not necessarily starting with a letter); text containing
the placeholder `contact.favorite_color` yields a set containing
`favorite_color`. -/
theorem token_matching_amended :
    (∀ j : Json, extractWorkflowProps j = extractPropsFromJsonWithTokens j ∧
      extractEmailProps j = extractPropsFromJsonWithTokens j) ∧
    (∀ (j : Json) (x : List Char),
        x ∈ extractPropsFromJsonWithTokens j ↔
          x ∈ extractPropNamesFromJson (stringify j) ∨ x ∈ scanToks (stringify j)) ∧
    (∀ (j : Json) (f : List Char),
        f ∈ scanToks (stringify j) ↔ TokOccurs (stringify j) f) ∧
    "favorite_color".data ∈ extractPropsFromJsonWithTokens
        (Json.str "Hello \x7b\x7bcontact.favorite_color\x7d\x7d!".data) := by
  refine ⟨fun j => ⟨rfl, rfl⟩, ?_, ?_, ?_⟩
  · intro j x
    rw [extractPropsFromJsonWithTokens, mem_setAddAll]
  · intro j f
    rw [mem_scanToks_iff_tokOcc, mem_tokOcc_iff]
  · decide

/-! ### C1 amended: an exact characterization of the structural scan

The key/value regex runs over `JSON.stringify` output.  The results
below characterize its capture set exactly: a string value of identifier
shape is captured when its key's maximal ASCII-letter suffix belongs to
the key language and is either the whole key or directly preceded by a
double quote (the serialized escape of an embedded quote ends in a raw
quote, letting a match start there).  The development analyses the
serialized form block by block: every quote inside an escaped string
content is preceded by a backslash, so a key run can only close at a
real key-closing quote. -/

/-- Tails at which the inductive serialization lemma is applied: the
characters that can follow a serialized value inside a larger
serialization (nothing, a comma, or a closing bracket), none of which
can continue a partial match across the boundary. -/
def goodTail : List Char → Bool
  | [] => true
  | c :: _ => c == ',' || c == '}' || c == ']'

/-- The capture the value side of the regex admits: a string value whose
content has the identifier shape. -/
def valCap : Json → Option (List Char)
  | .str s => if identShape s then some s else none
  | _ => none

/-- The capture one object entry contributes. -/
def entryCap (k : List Char) (v : Json) : List (List Char) :=
  match (if keyMatchB k then valCap v else none) with
  | some s => [s]
  | none => []

/-- Front-to-back form of the embedded-quote key condition: some
character of the key is a double quote followed only by ASCII letters
forming a key-language member. -/
def keyTailCond : List Char → Bool
  | [] => false
  | c :: t => (c == '"' && t.all isAsciiAlpha && patSuffix t) || keyTailCond t

mutual
/-- The captures of the key/value regex over a serialized JSON value, in
scan order: each object entry contributes its own capture and then the
captures of its value. -/
def specCollect : Json → List (List Char)
  | .arr es => specCollectList es
  | .obj kvs => specCollectEntries kvs
  | _ => []
def specCollectList : List Json → List (List Char)
  | [] => []
  | x :: t => specCollect x ++ specCollectList t
def specCollectEntries : List (List Char × Json) → List (List Char)
  | [] => []
  | (k, v) :: t => entryCap k v ++ (specCollect v ++ specCollectEntries t)
end

theorem length_dropWhile_le (p : α → Bool) : ∀ l : List α, (l.dropWhile p).length ≤ l.length := by
  intro l
  induction l with
  | nil => exact Nat.le_refl _
  | cons c t ih =>
    rw [List.dropWhile]
    cases p c with
    | true => exact Nat.le_succ_of_le ih
    | false => exact Nat.le_refl _

theorem dropWhile_append_stop (p : α → Bool) {x : α} (hx : p x = false) :
    ∀ (l y : List α), l.all p = true → (l ++ x :: y).dropWhile p = x :: y := by
  intro l
  induction l with
  | nil =>
    intro y _
    rw [List.nil_append, List.dropWhile, hx]
  | cons c t ih =>
    intro y hl
    rw [List.all_cons, Bool.and_eq_true] at hl
    rw [List.cons_append, List.dropWhile, hl.1]
    exact ih y hl.2

theorem dropWhile_head_false {p : α → Bool} :
    ∀ {l : List α} {c : α} {d : List α}, l.dropWhile p = c :: d → p c = false := by
  intro l
  induction l with
  | nil => intro c d h; exact absurd h (by simp)
  | cons a t ih =>
    intro c d h
    rw [List.dropWhile] at h
    cases ha : p a with
    | true => rw [ha] at h; exact ih h
    | false =>
      rw [ha] at h
      injection h with h1 _
      rw [← h1]
      exact ha

theorem takeWhile_all {p : α → Bool} : ∀ {l : List α}, l.all p = true → l.takeWhile p = l := by
  intro l
  induction l with
  | nil => intro _; rfl
  | cons c t ih =>
    intro h
    rw [List.all_cons, Bool.and_eq_true] at h
    rw [List.takeWhile, h.1]
    simp [ih h.2]

/-- An unescaped character serializes to itself. -/
theorem escChar_plain {c : Char} (h32 : 32 ≤ c.toNat) (hq : c ≠ '"') (hb : c ≠ '\\') :
    escChar c = [c] := by
  rw [escChar, if_neg hq, if_neg hb, if_neg (by omega), if_neg (by omega), if_neg (by omega),
    if_neg (by omega), if_neg (by omega), if_neg (by omega)]

theorem escChar_letter {c : Char} (h : isAsciiAlpha c = true) : escChar c = [c] := by
  simp only [isAsciiAlpha, isLowerAlpha, isUpperAlpha, Bool.or_eq_true, Bool.and_eq_true,
    decide_eq_true_eq] at h
  refine escChar_plain (by omega) ?_ ?_ <;> intro he <;> subst he <;> simp_all

theorem escChar_name {c : Char} (h : isNameChar c = true) : escChar c = [c] := by
  simp only [isNameChar, isLowerAlpha, isDigitCh, Bool.or_eq_true, Bool.and_eq_true,
    decide_eq_true_eq] at h
  refine escChar_plain (by omega) ?_ ?_ <;> intro he <;> subst he <;> simp_all

theorem hexDigit_ne_quote {n : Nat} (h : n < 16) : hexDigit n ≠ '"' := by
  interval_cases n <;> decide

/-- Every serialized character block is either the character itself or a
backslash followed by characters among which a raw double quote occurs
only for the quote character's own escape. -/
theorem escChar_split (c : Char) :
    escChar c = [c] ∨ ∃ t, escChar c = '\\' :: t ∧ (∀ x ∈ t, x = '"' → c = '"') := by
  rw [escChar]
  split_ifs with h1 h2 h3 h4 h5 h6 h7
  · refine Or.inr ⟨['"'], rfl, ?_⟩
    intro x hx _
    exact h1
  · refine Or.inr ⟨['\\'], rfl, ?_⟩
    intro x hx he
    simp only [List.mem_cons, List.not_mem_nil, or_false] at hx
    rw [hx] at he
    exact absurd he (by decide)
  · refine Or.inr ⟨['b'], rfl, ?_⟩
    intro x hx he
    simp only [List.mem_cons, List.not_mem_nil, or_false] at hx
    rw [hx] at he
    exact absurd he (by decide)
  · refine Or.inr ⟨['t'], rfl, ?_⟩
    intro x hx he
    simp only [List.mem_cons, List.not_mem_nil, or_false] at hx
    rw [hx] at he
    exact absurd he (by decide)
  · refine Or.inr ⟨['n'], rfl, ?_⟩
    intro x hx he
    simp only [List.mem_cons, List.not_mem_nil, or_false] at hx
    rw [hx] at he
    exact absurd he (by decide)
  · refine Or.inr ⟨['f'], rfl, ?_⟩
    intro x hx he
    simp only [List.mem_cons, List.not_mem_nil, or_false] at hx
    rw [hx] at he
    exact absurd he (by decide)
  · refine Or.inr ⟨['r'], rfl, ?_⟩
    intro x hx he
    simp only [List.mem_cons, List.not_mem_nil, or_false] at hx
    rw [hx] at he
    exact absurd he (by decide)
  · refine Or.inr ⟨['u', '0', '0', hexDigit (c.toNat / 16), hexDigit (c.toNat % 16)], rfl, ?_⟩
    intro x hx he
    simp only [List.mem_cons, List.not_mem_nil, or_false] at hx
    rcases hx with rfl | rfl | rfl | rfl | rfl
    · exact absurd he (by decide)
    · exact absurd he (by decide)
    · exact absurd he (by decide)
    · exact absurd he (hexDigit_ne_quote (by omega))
    · exact absurd he (hexDigit_ne_quote (by omega))
  · exact Or.inl rfl

/-- A character other than the double quote serializes to characters
none of which is a double quote: every quote inside escaped string
content is the second character of its two-character escape. -/
theorem escChar_no_quote {c : Char} (hc : c ≠ '"') : ∀ x ∈ escChar c, x ≠ '"' := by
  intro x hx
  rcases escChar_split c with he | ⟨t, he, ht⟩
  · rw [he] at hx
    simp only [List.mem_cons, List.not_mem_nil, or_false] at hx
    rw [hx]
    exact hc
  · rw [he] at hx
    rcases List.mem_cons.1 hx with rfl | hx2
    · decide
    · intro hq
      exact hc (ht x hx2 hq)

theorem escChar_head_bad_name {c : Char} (h : isNameChar c = false) :
    ∃ b t, escChar c = b :: t ∧ isNameChar b = false ∧ b ≠ '"' := by
  rcases escChar_split c with he | ⟨t, he, _⟩
  · refine ⟨c, [], he, h, ?_⟩
    intro hq
    subst hq
    simp [escChar] at he
  · exact ⟨'\\', t, he, by decide, by decide⟩

theorem escChar_head_bad_letter {c : Char} (h : isAsciiAlpha c = false) :
    ∃ b t, escChar c = b :: t ∧ isAsciiAlpha b = false ∧ b ≠ '"' := by
  rcases escChar_split c with he | ⟨t, he, _⟩
  · refine ⟨c, [], he, h, ?_⟩
    intro hq
    subst hq
    simp [escChar] at he
  · exact ⟨'\\', t, he, by decide, by decide⟩

theorem escStr_all_name : ∀ {s : List Char}, s.all isNameChar = true → escStr s = s := by
  intro s
  induction s with
  | nil => intro _; rfl
  | cons c t ih =>
    intro h
    rw [List.all_cons, Bool.and_eq_true] at h
    rw [escStr, List.flatMap_cons, escChar_name h.1]
    rw [escStr] at ih
    rw [ih h.2]
    rfl

theorem escStr_all_letter : ∀ {s : List Char}, s.all isAsciiAlpha = true → escStr s = s := by
  intro s
  induction s with
  | nil => intro _; rfl
  | cons c t ih =>
    intro h
    rw [List.all_cons, Bool.and_eq_true] at h
    rw [escStr, List.flatMap_cons, escChar_letter h.1]
    rw [escStr] at ih
    rw [ih h.2]
    rfl

theorem escStr_bad_letter : ∀ (s : List Char), s.all isAsciiAlpha = false → ∀ w,
    ∃ b r, (escStr s ++ w).dropWhile isAsciiAlpha = b :: r ∧ b ≠ '"' := by
  intro s
  induction s with
  | nil => intro h _; exact absurd h (by simp)
  | cons c t ih =>
    intro h w
    cases hc : isAsciiAlpha c with
    | true =>
      rw [List.all_cons, hc, Bool.true_and] at h
      obtain ⟨b, r, hd, hb⟩ := ih h w
      refine ⟨b, r, ?_, hb⟩
      rw [escStr, List.flatMap_cons, escChar_letter hc, List.singleton_append,
        List.cons_append, List.dropWhile, hc]
      rw [escStr] at hd
      exact hd
    | false =>
      obtain ⟨b, bt, hblk, hb1, hb2⟩ := escChar_head_bad_letter hc
      refine ⟨b, bt ++ (escStr t ++ w), ?_, hb2⟩
      rw [escStr, List.flatMap_cons, hblk, List.cons_append, List.cons_append, List.dropWhile,
        hb1, List.append_assoc]
      rfl

theorem escStr_bad_name : ∀ (s : List Char), s.all isNameChar = false → ∀ w,
    ∃ b r, (escStr s ++ w).dropWhile isNameChar = b :: r ∧ b ≠ '"' := by
  intro s
  induction s with
  | nil => intro h _; exact absurd h (by simp)
  | cons c t ih =>
    intro h w
    cases hc : isNameChar c with
    | true =>
      rw [List.all_cons, hc, Bool.true_and] at h
      obtain ⟨b, r, hd, hb⟩ := ih h w
      refine ⟨b, r, ?_, hb⟩
      rw [escStr, List.flatMap_cons, escChar_name hc, List.singleton_append,
        List.cons_append, List.dropWhile, hc]
      rw [escStr] at hd
      exact hd
    | false =>
      obtain ⟨b, bt, hblk, hb1, hb2⟩ := escChar_head_bad_name hc
      refine ⟨b, bt ++ (escStr t ++ w), ?_, hb2⟩
      rw [escStr, List.flatMap_cons, hblk, List.cons_append, List.cons_append, List.dropWhile,
        hb1, List.append_assoc]
      rfl

theorem natDigitsCore_digits : ∀ (fuel n : Nat) (acc : List Char),
    (∀ c ∈ acc, isDigitCh c = true) → ∀ c ∈ natDigitsCore fuel n acc, isDigitCh c = true := by
  intro fuel
  induction fuel with
  | zero => exact fun n acc h => h
  | succ fu ih =>
    intro n acc hacc c hc
    rw [natDigitsCore] at hc
    have hd : isDigitCh (Char.ofNat (48 + n % 10)) = true := by
      have h10 : n % 10 < 10 := Nat.mod_lt _ (by omega)
      generalize hr : n % 10 = r at h10 ⊢
      interval_cases r <;> decide
    have hacc2 : ∀ x ∈ Char.ofNat (48 + n % 10) :: acc, isDigitCh x = true := by
      intro x hx
      rcases List.mem_cons.1 hx with rfl | hx2
      · exact hd
      · exact hacc x hx2
    split at hc
    · exact hacc2 c hc
    · exact ih _ _ hacc2 c hc

theorem natDigitsCore_eq_nil : ∀ (fuel n : Nat) (acc : List Char),
    natDigitsCore fuel n acc = [] → acc = [] := by
  intro fuel
  induction fuel with
  | zero => exact fun n acc h => h
  | succ fu ih =>
    intro n acc h
    rw [natDigitsCore] at h
    split at h
    · exact absurd h (by simp)
    · exact absurd (ih _ _ h) (by simp)

theorem natDigits_ne_nil (n : Nat) : natDigits n ≠ [] := by
  intro h
  rw [natDigits, natDigitsCore] at h
  split at h
  · exact List.cons_ne_nil _ _ h
  · exact List.cons_ne_nil _ _ (natDigitsCore_eq_nil _ _ _ h)

theorem intChars_head (n : Int) : ∃ c t, intChars n = c :: t ∧ (isDigitCh c = true ∨ c = '-') := by
  rw [intChars]
  split
  · exact ⟨'-', _, rfl, Or.inr rfl⟩
  · cases hd : natDigits n.toNat with
    | nil => exact absurd hd (natDigits_ne_nil _)
    | cons c t =>
      refine ⟨c, t, rfl, Or.inl ?_⟩
      exact natDigitsCore_digits _ _ [] (by simp) c (by rw [natDigits] at hd; rw [hd]; simp)

theorem digit_ne_quote {c : Char} (h : isDigitCh c = true) : c ≠ '"' := by
  intro he
  subst he
  exact absurd h (by decide)

theorem mem_intChars_ne_quote {n : Int} : ∀ c ∈ intChars n, c ≠ '"' := by
  intro c hc
  rw [intChars] at hc
  split at hc
  · rcases List.mem_cons.1 hc with rfl | hc2
    · decide
    · exact digit_ne_quote (natDigitsCore_digits _ _ [] (by simp) c hc2)
  · exact digit_ne_quote (natDigitsCore_digits _ _ [] (by simp) c hc)

theorem digit_not_ws {c : Char} (h : isDigitCh c = true) : isJsWs c = false := by
  simp only [isDigitCh, Bool.and_eq_true, decide_eq_true_eq] at h
  cases hw : isJsWs c with
  | false => rfl
  | true =>
    simp only [isJsWs, Bool.or_eq_true, Bool.and_eq_true, decide_eq_true_eq] at hw
    omega

theorem lower_is_letter {c : Char} (h : isLowerAlpha c = true) : isAsciiAlpha c = true := by
  simp [isAsciiAlpha, h]

theorem not_letter_not_lower {c : Char} (h : isAsciiAlpha c = false) : isLowerAlpha c = false := by
  simp only [isAsciiAlpha, Bool.or_eq_false_iff] at h
  exact h.1

theorem escChar_head_not_lower {c : Char} (h : isLowerAlpha c = false) :
    ∃ b t, escChar c = b :: t ∧ isLowerAlpha b = false := by
  by_cases hA : isAsciiAlpha c = true
  · exact ⟨c, [], escChar_letter hA, h⟩
  · obtain ⟨b, t, hblk, hb, _⟩ := escChar_head_bad_letter (Bool.not_eq_true _ ▸ hA)
    exact ⟨b, t, hblk, not_letter_not_lower hb⟩

/-! ### matchPropAt: failure and success shapes -/

theorem matchPropAt_ne_quote {c : Char} (hc : c ≠ '"') (t : List Char) :
    matchPropAt (c :: t) = none := by
  unfold matchPropAt
  split
  · next heq =>
    injection heq with h1 _
    exact absurd h1 hc
  · rfl

theorem matchPropAt_consumes : ∀ (s v rest : List Char),
    matchPropAt s = some (v, rest) → rest.length < s.length := by
  intro s v rest h
  unfold matchPropAt at h
  split at h
  · next r =>
    simp only at h
    split at h
    · split at h
      · next r2 hd =>
        split at h
        · next r3 hd2 =>
          split at h
          · next c r5 hd3 =>
            split at h
            · split at h
              · next rest2 hd4 =>
                obtain ⟨hv, hr⟩ : c :: r5.takeWhile isNameChar = v ∧ rest2 = rest := by
                  simpa using h
                subst hr
                have l1 := congrArg List.length hd
                simp only [List.length_drop, List.length_cons] at l1
                have l2 := length_dropWhile_le isJsWs r2
                rw [hd2] at l2
                simp only [List.length_cons] at l2
                have l3 := length_dropWhile_le isJsWs r3
                rw [hd3] at l3
                simp only [List.length_cons] at l3
                have l4 := congrArg List.length hd4
                simp only [List.length_drop, List.length_cons] at l4
                simp only [List.length_cons]
                omega
              · exact absurd h (by simp)
            · exact absurd h (by simp)
          · exact absurd h (by simp)
        · exact absurd h (by simp)
      · exact absurd h (by simp)
    · exact absurd h (by simp)
  · exact absurd h (by simp)

theorem scanProps_cons_some {c : Char} {t v rest : List Char}
    (h : matchPropAt (c :: t) = some (v, rest)) :
    scanProps (c :: t) = v :: scanProps rest := by
  have hlt := matchPropAt_consumes _ _ _ h
  simp only [List.length_cons] at hlt
  rw [scanProps, scanCore, h]
  show v :: scanCore matchPropAt (c :: t).length rest = v :: scanProps rest
  rw [scanProps, scanCore_fuel matchPropAt_consumes ((c :: t).length) (rest.length + 1) rest
    (by simp only [List.length_cons]; omega) (by omega)]

theorem scanProps_cons_none {c : Char} {t : List Char} (h : matchPropAt (c :: t) = none) :
    scanProps (c :: t) = scanProps t := by
  rw [scanProps, scanCore, h]
  show scanCore matchPropAt (c :: t).length t = scanProps t
  rw [scanProps, scanCore_fuel matchPropAt_consumes ((c :: t).length) (t.length + 1) t
    (by simp) (by omega)]

theorem scanProps_append_no_quote :
    ∀ z : List Char, (∀ c ∈ z, c ≠ '"') → ∀ ys, scanProps (z ++ ys) = scanProps ys := by
  intro z
  induction z with
  | nil => exact fun _ _ => rfl
  | cons c t ih =>
    intro hz ys
    rw [List.cons_append, scanProps_cons_none (matchPropAt_ne_quote (hz c (by simp)) _)]
    exact ih (fun x hx => hz x (List.mem_cons_of_mem c hx)) ys

/-- A match attempt at the closing quote of a key: the colon follows
directly, so the key-run requirement fails at once. -/
theorem matchPropAt_quote_colon (w : List Char) : matchPropAt ('"' :: ':' :: w) = none := by
  have h1 : isAsciiAlpha ':' = false := by decide
  have h2 : patSuffix [] = false := by decide
  simp [matchPropAt, List.takeWhile, h1, h2]

/-- A match attempt at a quote followed by a serialization boundary
(end of input, comma or a closing bracket) fails: the letter run is
empty and the empty run is not in the key language. -/
theorem matchPropAt_quote_goodTail : ∀ {ys : List Char}, goodTail ys = true →
    matchPropAt ('"' :: ys) = none := by
  intro ys h
  cases ys with
  | nil => decide
  | cons g t =>
    rw [goodTail] at h
    simp only [Bool.or_eq_true, beq_iff_eq] at h
    have hg : isAsciiAlpha g = false := by
      rcases h with (rfl | rfl) | rfl <;> decide
    have h2 : patSuffix [] = false := by decide
    simp [matchPropAt, List.takeWhile, hg, h2]

/-- A match attempt at a quote whose letter run reaches a closing quote
followed by a serialization boundary fails: the boundary character is
not whitespace and not the required colon. -/
theorem matchPropAt_key_no_colon {K ys : List Char} (hK : K.all isAsciiAlpha = true)
    (hys : goodTail ys = true) : matchPropAt ('"' :: (K ++ '"' :: ys)) = none := by
  have htw : (K ++ '"' :: ys).takeWhile isAsciiAlpha = K :=
    takeWhile_append_stop _ (by decide) K _ hK
  simp only [matchPropAt, htw, List.drop_left]
  split
  · cases ys with
    | nil => simp [List.dropWhile]
    | cons g t =>
      rw [goodTail] at hys
      simp only [Bool.or_eq_true, beq_iff_eq] at hys
      have hg : isJsWs g = false := by rcases hys with (rfl | rfl) | rfl <;> decide
      have hg2 : g ≠ ':' := by rcases hys with (rfl | rfl) | rfl <;> decide
      rw [List.dropWhile, hg]
      split
      · next heq =>
        injection heq with h1 _
        exact absurd h1 hg2
      · rfl
  · rfl

/-- A match attempt at a quote followed by escaped string content that
is not all letters fails: the letter run stops at a character that is
not a raw quote (an embedded quote's escape puts a backslash right
before it). -/
theorem matchPropAt_quote_bad {s : List Char} (hs : s.all isAsciiAlpha = false) (w : List Char) :
    matchPropAt ('"' :: (escStr s ++ w)) = none := by
  obtain ⟨b, r, hd, hb⟩ := escStr_bad_letter s hs w
  simp only [matchPropAt]
  rw [drop_takeWhile_len, hd]
  split
  · split
    · next heq =>
      injection heq with h1 _
      exact absurd h1 hb
    · rfl
  · rfl

/-- The match attempt at the opening quote of a serialized object entry
whose key content is all letters: it succeeds exactly when the letter
run is in the key language and the value is a string of identifier
shape, capturing the value content and consuming the whole entry. -/
theorem matchPropAt_entry {K : List Char} (hK : K.all isAsciiAlpha = true) (v : Json)
    (zs : List Char) :
    matchPropAt ('"' :: (K ++ '"' :: ':' :: (stringify v ++ zs))) =
      if patSuffix K = true then
        (match valCap v with
         | some s => some (s, zs)
         | none => none)
      else none := by
  have htw : (K ++ '"' :: ':' :: (stringify v ++ zs)).takeWhile isAsciiAlpha = K :=
    takeWhile_append_stop _ (by decide) K _ hK
  simp only [matchPropAt, htw, List.drop_left]
  by_cases hps : patSuffix K = true
  · rw [if_pos hps, if_pos hps]
    have hdc : (':' :: (stringify v ++ zs)).dropWhile isJsWs = ':' :: (stringify v ++ zs) := by
      simp [List.dropWhile, show isJsWs ':' = false from by decide]
    simp only [hdc]
    cases v with
    | null =>
      have h1 : stringify Json.null ++ zs = 'n' :: ("ull".data ++ zs) := rfl
      have h2 : ('n' :: ("ull".data ++ zs)).dropWhile isJsWs = 'n' :: ("ull".data ++ zs) := by
        simp [List.dropWhile, show isJsWs 'n' = false from by decide]
      simp only [h1, h2]
      rfl
    | bool b =>
      cases b with
      | true =>
        have h1 : stringify (Json.bool true) ++ zs = 't' :: ("rue".data ++ zs) := rfl
        have h2 : ('t' :: ("rue".data ++ zs)).dropWhile isJsWs = 't' :: ("rue".data ++ zs) := by
          simp [List.dropWhile, show isJsWs 't' = false from by decide]
        simp only [h1, h2]
        rfl
      | false =>
        have h1 : stringify (Json.bool false) ++ zs = 'f' :: ("alse".data ++ zs) := rfl
        have h2 : ('f' :: ("alse".data ++ zs)).dropWhile isJsWs = 'f' :: ("alse".data ++ zs) := by
          simp [List.dropWhile, show isJsWs 'f' = false from by decide]
        simp only [h1, h2]
        rfl
    | num n =>
      obtain ⟨c0, t0, hct, hc0⟩ := intChars_head n
      have h1 : stringify (Json.num n) ++ zs = c0 :: (t0 ++ zs) := by
        show intChars n ++ zs = _
        rw [hct]
        rfl
      have hw : isJsWs c0 = false := by
        rcases hc0 with hd | rfl
        · exact digit_not_ws hd
        · decide
      have hq : c0 ≠ '"' := by
        rcases hc0 with hd | rfl
        · exact digit_ne_quote hd
        · decide
      have h2 : (c0 :: (t0 ++ zs)).dropWhile isJsWs = c0 :: (t0 ++ zs) := by
        simp [List.dropWhile, hw]
      simp only [h1, h2]
      split
      · next heq =>
        injection heq with he1 _
        exact absurd he1 hq
      · rfl
    | arr es =>
      have h1 : stringify (Json.arr es) ++ zs =
          '[' :: ((stringifyElems es ++ [']']) ++ zs) := rfl
      have h2 : ('[' :: ((stringifyElems es ++ [']']) ++ zs)).dropWhile isJsWs =
          '[' :: ((stringifyElems es ++ [']']) ++ zs) := by
        simp [List.dropWhile, show isJsWs '[' = false from by decide]
      simp only [h1, h2]
      rfl
    | obj kvs =>
      have h1 : stringify (Json.obj kvs) ++ zs =
          '{' :: ((stringifyEntries kvs ++ ['}']) ++ zs) := rfl
      have h2 : ('{' :: ((stringifyEntries kvs ++ ['}']) ++ zs)).dropWhile isJsWs =
          '{' :: ((stringifyEntries kvs ++ ['}']) ++ zs) := by
        simp [List.dropWhile, show isJsWs '{' = false from by decide]
      simp only [h1, h2]
      rfl
    | str s =>
      have h1 : stringify (Json.str s) ++ zs = '"' :: (escStr s ++ '"' :: zs) := by
        show ('"' :: escStr s ++ ['"']) ++ zs = _
        simp
      have h2 : ('"' :: (escStr s ++ '"' :: zs)).dropWhile isJsWs =
          '"' :: (escStr s ++ '"' :: zs) := by
        simp [List.dropWhile, show isJsWs '"' = false from by decide]
      simp only [h1, h2]
      cases s with
      | nil => rfl
      | cons s0 t0 =>
        by_cases hl : isLowerAlpha s0 = true
        · have h3 : escStr (s0 :: t0) ++ '"' :: zs = s0 :: (escStr t0 ++ '"' :: zs) := by
            rw [escStr, List.flatMap_cons, escChar_name (by simp [isNameChar, hl])]
            rfl
          simp only [h3]
          by_cases hta : t0.all isNameChar = true
          · rw [escStr_all_name hta]
            have h5 : (t0 ++ '"' :: zs).takeWhile isNameChar = t0 :=
              takeWhile_append_stop _ (by decide) _ _ hta
            have h6 : (t0 ++ '"' :: zs).dropWhile isNameChar = '"' :: zs :=
              dropWhile_append_stop _ (by decide) _ _ hta
            simp only [hl, if_true, drop_takeWhile_len, h5, h6]
            simp [valCap, identShape, hl, hta]
          · obtain ⟨b, r, hdn, hb⟩ := escStr_bad_name t0 (Bool.eq_false_iff.mpr hta) ('"' :: zs)
            simp only [hl, if_true, drop_takeWhile_len, hdn]
            have hvc : valCap (Json.str (s0 :: t0)) = none := by
              simp [valCap, identShape, Bool.eq_false_iff.mpr hta]
            rw [hvc]
            split
            · next heq =>
              injection heq with he1 _
              exact absurd he1 hb
            · rfl
        · obtain ⟨b, bt, hblk, hbl⟩ := escChar_head_not_lower (Bool.eq_false_iff.mpr hl)
          have h3 : escStr (s0 :: t0) ++ '"' :: zs = b :: ((bt ++ escStr t0) ++ '"' :: zs) := by
            rw [escStr, List.flatMap_cons, hblk]
            simp [escStr]
          simp only [h3]
          have hvc : valCap (Json.str (s0 :: t0)) = none := by
            simp [valCap, identShape, Bool.eq_false_iff.mpr hl]
          rw [hvc]
          simp [hbl]
  · rw [if_neg hps, if_neg hps]

theorem letters_no_quote {k : List Char} (h : k.all isAsciiAlpha = true) :
    ∀ x ∈ k, x ≠ '"' := by
  intro x hx he
  subst he
  exact absurd (List.all_eq_true.1 h _ hx) (by decide)

theorem valCap_some {v : Json} {s : List Char} (h : valCap v = some s) :
    v = Json.str s ∧ identShape s = true := by
  cases v with
  | str s2 =>
    rw [valCap] at h
    split at h
    · next hid =>
      injection h with h2
      subst h2
      exact ⟨rfl, hid⟩
    · exact absurd h (by simp)
  | null => exact absurd h (by simp [valCap])
  | bool b => exact absurd h (by simp [valCap])
  | num n => exact absurd h (by simp [valCap])
  | arr es => exact absurd h (by simp [valCap])
  | obj kvs => exact absurd h (by simp [valCap])

theorem keyTailCond_no_quote : ∀ {k : List Char}, (∀ c ∈ k, c ≠ '"') → keyTailCond k = false := by
  intro k
  induction k with
  | nil => intro _; rfl
  | cons c t ih =>
    intro h
    rw [keyTailCond]
    have hc : (c == '"') = false := by
      simp only [beq_eq_false_iff_ne, ne_eq]
      exact h c (by simp)
    rw [hc]
    simp [ih (fun x hx => h x (List.mem_cons_of_mem c hx))]

theorem keyTailCond_iff : ∀ k : List Char, keyTailCond k = true ↔
    ∃ p t, k = p ++ '"' :: t ∧ t.all isAsciiAlpha = true ∧ patSuffix t = true := by
  intro k
  induction k with
  | nil =>
    constructor
    · intro h
      exact absurd h (by simp [keyTailCond])
    · rintro ⟨p, t, h, -, -⟩
      have := congrArg List.length h
      simp at this
      omega
  | cons c t ih =>
    rw [keyTailCond]
    simp only [Bool.or_eq_true, Bool.and_eq_true, beq_iff_eq]
    constructor
    · rintro (⟨⟨rfl, hall⟩, hps⟩ | htc)
      · exact ⟨[], t, rfl, hall, hps⟩
      · obtain ⟨p, t2, h, ha, hp⟩ := ih.1 htc
        exact ⟨c :: p, t2, by rw [List.cons_append, h], ha, hp⟩
    · rintro ⟨p, t2, h, ha, hp⟩
      cases p with
      | nil =>
        simp only [List.nil_append] at h
        injection h with h1 h2
        subst h1
        subst h2
        exact Or.inl ⟨⟨rfl, ha⟩, hp⟩
      | cons q p2 =>
        rw [List.cons_append] at h
        injection h with h1 h2
        exact Or.inr (ih.2 ⟨p2, t2, h2, ha, hp⟩)

/-- The reverse-based key condition equals: the whole key is a
key-language letter run, or some embedded quote is followed by a
key-language letter run reaching the end of the key. -/
theorem keyMatchB_eq (k : List Char) :
    keyMatchB k = ((k.all isAsciiAlpha && patSuffix k) || keyTailCond k) := by
  cases hd : k.reverse.dropWhile isAsciiAlpha with
  | nil =>
    have hall : k.all isAsciiAlpha = true := by
      have h1 : k.reverse.all isAsciiAlpha = true := by
        rw [← List.takeWhile_append_dropWhile (p := isAsciiAlpha) (l := k.reverse), hd,
          List.append_nil]
        exact all_takeWhile_self _ _
      simpa using h1
    have htk : k.reverse.takeWhile isAsciiAlpha = k.reverse :=
      takeWhile_all (by simpa using hall)
    have hnq : keyTailCond k = false := keyTailCond_no_quote (letters_no_quote hall)
    simp only [keyMatchB, hd, htk, List.reverse_reverse, hall, hnq]
    simp
  | cons c d =>
    have hcl : isAsciiAlpha c = false := dropWhile_head_false hd
    have h1 : k.reverse = k.reverse.takeWhile isAsciiAlpha ++ c :: d := by
      conv_lhs => rw [← List.takeWhile_append_dropWhile (p := isAsciiAlpha) (l := k.reverse), hd]
    have hsplit : k = d.reverse ++ c :: (k.reverse.takeWhile isAsciiAlpha).reverse := by
      calc k = k.reverse.reverse := (List.reverse_reverse k).symm
        _ = (k.reverse.takeWhile isAsciiAlpha ++ c :: d).reverse := by rw [← h1]
        _ = d.reverse ++ c :: (k.reverse.takeWhile isAsciiAlpha).reverse := by
            simp [List.reverse_append, List.reverse_cons, List.append_assoc]
    have hMall : ((k.reverse.takeWhile isAsciiAlpha).reverse).all isAsciiAlpha = true := by
      simp [all_takeWhile_self isAsciiAlpha k.reverse]
    have hkall : k.all isAsciiAlpha = false := by
      rw [hsplit]
      simp [List.all_append, List.all_cons, hcl]
    simp only [keyMatchB, hd, hkall, Bool.false_and, Bool.false_or]
    by_cases hc : c = '"'
    · subst hc
      cases hps : patSuffix (k.reverse.takeWhile isAsciiAlpha).reverse with
      | true =>
        have hkt : keyTailCond k = true :=
          (keyTailCond_iff k).2 ⟨d.reverse, _, hsplit, hMall, hps⟩
        rw [hkt]
        simp
      | false =>
        cases hkt : keyTailCond k with
        | false => simp
        | true =>
          obtain ⟨p, t2, hsp, ha, hp⟩ := (keyTailCond_iff k).1 hkt
          have h2 : k.reverse = t2.reverse ++ '"' :: p.reverse := by
            rw [hsp]
            simp [List.reverse_append, List.reverse_cons, List.append_assoc]
          have h3 : k.reverse.takeWhile isAsciiAlpha = t2.reverse := by
            rw [h2]
            exact takeWhile_append_stop _ (by decide) _ _ (by simpa using ha)
          rw [h3, List.reverse_reverse] at hps
          exact absurd hp (by simp [hps])
    · cases hkt : keyTailCond k with
      | false => simp [hc]
      | true =>
        obtain ⟨p, t2, hsp, ha, hp⟩ := (keyTailCond_iff k).1 hkt
        have h2 : k.reverse = t2.reverse ++ '"' :: p.reverse := by
          rw [hsp]
          simp [List.reverse_append, List.reverse_cons, List.append_assoc]
        have h3 : k.reverse.dropWhile isAsciiAlpha = '"' :: p.reverse := by
          rw [h2]
          exact dropWhile_append_stop _ (by decide) _ _ (by simpa using ha)
        rw [hd] at h3
        injection h3 with h4 _
        exact absurd h4 hc

/-- Scanning the escaped content of a key from just after its opening
quote: the only capture can come from an embedded raw quote whose letter
tail reaches the key's closing quote and matches the key language, with
the value side then deciding the match. -/
theorem scanProps_keyRegion : ∀ (k : List Char) (v : Json) (zs : List Char),
    scanProps (escStr k ++ '"' :: ':' :: (stringify v ++ zs)) =
      match (if keyTailCond k = true then valCap v else none) with
      | some s => s :: scanProps zs
      | none => scanProps (stringify v ++ zs) := by
  intro k
  induction k with
  | nil =>
    intro v zs
    show scanProps ('"' :: ':' :: (stringify v ++ zs)) = _
    rw [scanProps_cons_none (matchPropAt_quote_colon _)]
    rw [scanProps_cons_none (matchPropAt_ne_quote (by decide) _)]
    rfl
  | cons c t ih =>
    intro v zs
    by_cases hc : c = '"'
    · subst hc
      have he : escStr ('"' :: t) ++ '"' :: ':' :: (stringify v ++ zs) =
          '\\' :: ('"' :: (escStr t ++ '"' :: ':' :: (stringify v ++ zs))) := by
        rw [escStr, List.flatMap_cons, show escChar '"' = ['\\', '"'] from rfl]
        simp [escStr]
      rw [he]
      rw [scanProps_cons_none (matchPropAt_ne_quote (by decide) _)]
      by_cases hta : t.all isAsciiAlpha = true
      · rw [escStr_all_letter hta]
        have hm := matchPropAt_entry hta v zs
        by_cases hps : patSuffix t = true
        · rw [if_pos hps] at hm
          cases hvc : valCap v with
          | some s =>
            rw [hvc] at hm
            rw [scanProps_cons_some hm]
            have hkt : keyTailCond ('"' :: t) = true := by simp [keyTailCond, hta, hps]
            simp [hkt, hvc]
          | none =>
            rw [hvc] at hm
            rw [scanProps_cons_none hm]
            have h2 := ih v zs
            rw [escStr_all_letter hta] at h2
            rw [h2]
            simp [hvc]
        · rw [if_neg hps] at hm
          rw [scanProps_cons_none hm]
          rw [scanProps_append_no_quote t (letters_no_quote hta) _]
          rw [scanProps_cons_none (matchPropAt_quote_colon _)]
          rw [scanProps_cons_none (matchPropAt_ne_quote (by decide) _)]
          have hkt : keyTailCond t = false := keyTailCond_no_quote (letters_no_quote hta)
          simp [keyTailCond, hps, hkt]
      · rw [scanProps_cons_none (matchPropAt_quote_bad (Bool.eq_false_iff.mpr hta) _)]
        rw [ih v zs]
        simp [keyTailCond, Bool.eq_false_iff.mpr hta]
    · have he : escStr (c :: t) ++ '"' :: ':' :: (stringify v ++ zs) =
          escChar c ++ (escStr t ++ '"' :: ':' :: (stringify v ++ zs)) := by
        rw [escStr, List.flatMap_cons]
        simp [escStr]
      rw [he]
      rw [scanProps_append_no_quote (escChar c) (escChar_no_quote hc) _]
      rw [ih v zs]
      simp [keyTailCond, hc]

/-- Scanning the escaped content of a string value from just after its
opening quote: no match can start inside it, because an embedded quote's
letter tail reaches the value's closing quote, after which the boundary
character (comma, closing bracket or end of input) is not the colon the
regex requires. -/
theorem scanProps_strRegion : ∀ (s ys : List Char), goodTail ys = true →
    scanProps (escStr s ++ '"' :: ys) = scanProps ys := by
  intro s
  induction s with
  | nil =>
    intro ys hys
    show scanProps ('"' :: ys) = _
    rw [scanProps_cons_none (matchPropAt_quote_goodTail hys)]
  | cons c t ih =>
    intro ys hys
    by_cases hc : c = '"'
    · subst hc
      have he : escStr ('"' :: t) ++ '"' :: ys = '\\' :: ('"' :: (escStr t ++ '"' :: ys)) := by
        rw [escStr, List.flatMap_cons, show escChar '"' = ['\\', '"'] from rfl]
        simp [escStr]
      rw [he]
      rw [scanProps_cons_none (matchPropAt_ne_quote (by decide) _)]
      by_cases hta : t.all isAsciiAlpha = true
      · rw [escStr_all_letter hta]
        rw [scanProps_cons_none (matchPropAt_key_no_colon hta hys)]
        have h2 := ih ys hys
        rw [escStr_all_letter hta] at h2
        exact h2
      · rw [scanProps_cons_none (matchPropAt_quote_bad (Bool.eq_false_iff.mpr hta) _)]
        exact ih ys hys
    · have he : escStr (c :: t) ++ '"' :: ys = escChar c ++ (escStr t ++ '"' :: ys) := by
        rw [escStr, List.flatMap_cons]
        simp [escStr]
      rw [he]
      rw [scanProps_append_no_quote (escChar c) (escChar_no_quote hc) _]
      exact ih ys hys

/-- One whole serialized object entry: the scan captures the entry's own
capture and then continues into the serialized value. -/
theorem scanProps_entry {k : List Char} {v : Json} {zs : List Char}
    (hv : scanProps (stringify v ++ zs) = specCollect v ++ scanProps zs) :
    scanProps ('"' :: (escStr k ++ '"' :: ':' :: (stringify v ++ zs))) =
      entryCap k v ++ (specCollect v ++ scanProps zs) := by
  by_cases hka : k.all isAsciiAlpha = true
  · rw [escStr_all_letter hka]
    have hm := matchPropAt_entry hka v zs
    by_cases hps : patSuffix k = true
    · rw [if_pos hps] at hm
      cases hvc : valCap v with
      | some s =>
        rw [hvc] at hm
        rw [scanProps_cons_some hm]
        have hkm : keyMatchB k = true := by
          rw [keyMatchB_eq]
          simp [hka, hps]
        obtain ⟨hveq, hid⟩ := valCap_some hvc
        subst hveq
        simp [entryCap, hkm, hvc, specCollect]
      | none =>
        rw [hvc] at hm
        rw [scanProps_cons_none hm]
        rw [scanProps_append_no_quote k (letters_no_quote hka) _]
        rw [scanProps_cons_none (matchPropAt_quote_colon _)]
        rw [scanProps_cons_none (matchPropAt_ne_quote (by decide) _)]
        rw [hv]
        simp [entryCap, hvc]
    · rw [if_neg hps] at hm
      rw [scanProps_cons_none hm]
      rw [scanProps_append_no_quote k (letters_no_quote hka) _]
      rw [scanProps_cons_none (matchPropAt_quote_colon _)]
      rw [scanProps_cons_none (matchPropAt_ne_quote (by decide) _)]
      rw [hv]
      have hkm : keyMatchB k = false := by
        rw [keyMatchB_eq]
        simp [hps, keyTailCond_no_quote (letters_no_quote hka)]
      simp [entryCap, hkm]
  · rw [scanProps_cons_none (matchPropAt_quote_bad (Bool.eq_false_iff.mpr hka) _)]
    rw [scanProps_keyRegion k v zs]
    have hkm : keyMatchB k = keyTailCond k := by
      rw [keyMatchB_eq, Bool.eq_false_iff.mpr hka]
      simp
    cases hkt : keyTailCond k with
    | true =>
      cases hvc : valCap v with
      | some s =>
        simp only [hkt, if_true, hvc]
        obtain ⟨hveq, hid⟩ := valCap_some hvc
        subst hveq
        simp [entryCap, hkm, hkt, hvc, specCollect]
      | none =>
        simp only [hkt, if_true, hvc]
        rw [hv]
        simp [entryCap, hkm, hkt, hvc]
    | false =>
      simp only [hkt, Bool.false_eq_true, if_false]
      rw [hv]
      simp [entryCap, hkm, hkt]

mutual
/-- The scan over a serialized JSON value followed by a serialization
boundary finds exactly the entry captures, in order. -/
theorem scanProps_stringify : (j : Json) → ∀ ys, goodTail ys = true →
    scanProps (stringify j ++ ys) = specCollect j ++ scanProps ys
  | .null => by
    intro ys hys
    rw [show stringify Json.null = "null".data from rfl]
    rw [scanProps_append_no_quote "null".data (by decide) ys]
    rfl
  | .bool b => by
    intro ys hys
    cases b
    · rw [show stringify (Json.bool false) = "false".data from rfl]
      rw [scanProps_append_no_quote "false".data (by decide) ys]
      rfl
    · rw [show stringify (Json.bool true) = "true".data from rfl]
      rw [scanProps_append_no_quote "true".data (by decide) ys]
      rfl
  | .num n => by
    intro ys hys
    rw [show stringify (Json.num n) = intChars n from rfl]
    rw [scanProps_append_no_quote (intChars n) mem_intChars_ne_quote ys]
    rfl
  | .str s => by
    intro ys hys
    have he : stringify (Json.str s) ++ ys = '"' :: (escStr s ++ '"' :: ys) := by
      show ('"' :: escStr s ++ ['"']) ++ ys = _
      simp
    rw [he]
    have hnone : matchPropAt ('"' :: (escStr s ++ '"' :: ys)) = none := by
      by_cases hta : s.all isAsciiAlpha = true
      · rw [escStr_all_letter hta]
        exact matchPropAt_key_no_colon hta hys
      · exact matchPropAt_quote_bad (Bool.eq_false_iff.mpr hta) _
    rw [scanProps_cons_none hnone]
    rw [scanProps_strRegion s ys hys]
    rfl
  | .arr es => by
    intro ys hys
    have he : stringify (Json.arr es) ++ ys = '[' :: (stringifyElems es ++ (']' :: ys)) := by
      show ('[' :: stringifyElems es ++ [']']) ++ ys = _
      simp
    rw [he]
    rw [scanProps_cons_none (matchPropAt_ne_quote (by decide) _)]
    rw [scanProps_stringifyElems es (']' :: ys) rfl]
    rw [scanProps_cons_none (matchPropAt_ne_quote (by decide) _)]
    rfl
  | .obj kvs => by
    intro ys hys
    have he : stringify (Json.obj kvs) ++ ys = '{' :: (stringifyEntries kvs ++ ('}' :: ys)) := by
      show ('{' :: stringifyEntries kvs ++ ['}']) ++ ys = _
      simp
    rw [he]
    rw [scanProps_cons_none (matchPropAt_ne_quote (by decide) _)]
    rw [scanProps_stringifyEntries kvs ('}' :: ys) rfl]
    rw [scanProps_cons_none (matchPropAt_ne_quote (by decide) _)]
    rfl
theorem scanProps_stringifyElems : (es : List Json) → ∀ ys, goodTail ys = true →
    scanProps (stringifyElems es ++ ys) = specCollectList es ++ scanProps ys
  | [] => by
    intro ys hys
    rw [show stringifyElems [] = [] from rfl]
    simp [specCollectList]
  | [x] => by
    intro ys hys
    rw [show stringifyElems [x] = stringify x from rfl]
    rw [scanProps_stringify x ys hys]
    simp [specCollectList]
  | x :: y :: t => by
    intro ys hys
    have he : stringifyElems (x :: y :: t) ++ ys =
        stringify x ++ (',' :: (stringifyElems (y :: t) ++ ys)) := by
      rw [show stringifyElems (x :: y :: t) =
        stringify x ++ ',' :: stringifyElems (y :: t) from rfl]
      simp
    rw [he]
    rw [scanProps_stringify x (',' :: (stringifyElems (y :: t) ++ ys)) rfl]
    rw [scanProps_cons_none (matchPropAt_ne_quote (by decide) _)]
    rw [scanProps_stringifyElems (y :: t) ys hys]
    simp [specCollectList]
theorem scanProps_stringifyEntries : (kvs : List (List Char × Json)) → ∀ ys, goodTail ys = true →
    scanProps (stringifyEntries kvs ++ ys) = specCollectEntries kvs ++ scanProps ys
  | [] => by
    intro ys hys
    rw [show stringifyEntries [] = [] from rfl]
    simp [specCollectEntries]
  | [(k, v)] => by
    intro ys hys
    have he : stringifyEntries [(k, v)] ++ ys =
        '"' :: (escStr k ++ '"' :: ':' :: (stringify v ++ ys)) := by
      rw [show stringifyEntries [(k, v)] =
        '"' :: escStr k ++ '"' :: ':' :: stringify v from rfl]
      simp
    rw [he]
    rw [scanProps_entry (scanProps_stringify v ys hys)]
    simp [specCollectEntries]
  | (k, v) :: e :: t => by
    intro ys hys
    have he : stringifyEntries ((k, v) :: e :: t) ++ ys =
        '"' :: (escStr k ++ '"' :: ':' :: (stringify v ++
          (',' :: (stringifyEntries (e :: t) ++ ys)))) := by
      rw [show stringifyEntries ((k, v) :: e :: t) =
        ('"' :: escStr k ++ '"' :: ':' :: stringify v) ++
          ',' :: stringifyEntries (e :: t) from rfl]
      simp
    rw [he]
    rw [scanProps_entry (scanProps_stringify v (',' :: (stringifyEntries (e :: t) ++ ys)) rfl)]
    rw [scanProps_cons_none (matchPropAt_ne_quote (by decide) _)]
    rw [scanProps_stringifyEntries (e :: t) ys hys]
    simp [specCollectEntries]
end

theorem mem_entryCap {k : List Char} {v : Json} {x : List Char} :
    x ∈ entryCap k v ↔ keyMatchB k = true ∧ v = Json.str x ∧ identShape x = true := by
  rw [entryCap]
  by_cases hkm : keyMatchB k = true
  · rw [if_pos hkm]
    cases hvc : valCap v with
    | some s =>
      obtain ⟨hveq, hid⟩ := valCap_some hvc
      subst hveq
      simp only [List.mem_singleton]
      constructor
      · rintro rfl
        exact ⟨hkm, rfl, hid⟩
      · rintro ⟨-, heq, -⟩
        injection heq with h2
        exact h2.symm
    | none =>
      constructor
      · intro h
        exact absurd h (List.not_mem_nil x)
      · rintro ⟨-, rfl, hid⟩
        rw [valCap, if_pos hid] at hvc
        exact Option.noConfusion hvc
  · rw [if_neg hkm]
    constructor
    · intro h
      exact absurd h (List.not_mem_nil x)
    · rintro ⟨h1, -, -⟩
      exact absurd h1 hkm

mutual
/-- Membership in the entry-capture list, characterized by the entries
of the JSON tree. -/
theorem mem_specCollect : (j : Json) → ∀ x, x ∈ specCollect j ↔
    ∃ k, (k, Json.str x) ∈ entriesOf j ∧ keyMatchB k = true ∧ identShape x = true
  | .null => by intro x; simp [specCollect, entriesOf]
  | .bool b => by intro x; simp [specCollect, entriesOf]
  | .num n => by intro x; simp [specCollect, entriesOf]
  | .str s => by intro x; simp [specCollect, entriesOf]
  | .arr es => by
    intro x
    rw [show specCollect (Json.arr es) = specCollectList es from rfl,
      show entriesOf (Json.arr es) = entriesOfList es from rfl]
    exact mem_specCollectList es x
  | .obj kvs => by
    intro x
    rw [show specCollect (Json.obj kvs) = specCollectEntries kvs from rfl,
      show entriesOf (Json.obj kvs) = entriesOfEntries kvs from rfl]
    exact mem_specCollectEntries kvs x
theorem mem_specCollectList : (es : List Json) → ∀ x, x ∈ specCollectList es ↔
    ∃ k, (k, Json.str x) ∈ entriesOfList es ∧ keyMatchB k = true ∧ identShape x = true
  | [] => by intro x; simp [specCollectList, entriesOfList]
  | e :: t => by
    intro x
    rw [show specCollectList (e :: t) = specCollect e ++ specCollectList t from rfl,
      show entriesOfList (e :: t) = entriesOf e ++ entriesOfList t from rfl]
    rw [List.mem_append, mem_specCollect e x, mem_specCollectList t x]
    constructor
    · rintro (⟨k, hk, h1, h2⟩ | ⟨k, hk, h1, h2⟩)
      · exact ⟨k, List.mem_append_left _ hk, h1, h2⟩
      · exact ⟨k, List.mem_append_right _ hk, h1, h2⟩
    · rintro ⟨k, hk, h1, h2⟩
      rcases List.mem_append.1 hk with hk2 | hk2
      · exact Or.inl ⟨k, hk2, h1, h2⟩
      · exact Or.inr ⟨k, hk2, h1, h2⟩
theorem mem_specCollectEntries : (kvs : List (List Char × Json)) → ∀ x,
    x ∈ specCollectEntries kvs ↔
    ∃ k, (k, Json.str x) ∈ entriesOfEntries kvs ∧ keyMatchB k = true ∧ identShape x = true
  | [] => by intro x; simp [specCollectEntries, entriesOfEntries]
  | (k0, v) :: t => by
    intro x
    rw [show specCollectEntries ((k0, v) :: t) =
        entryCap k0 v ++ (specCollect v ++ specCollectEntries t) from rfl,
      show entriesOfEntries ((k0, v) :: t) =
        (k0, v) :: (entriesOf v ++ entriesOfEntries t) from rfl]
    rw [List.mem_append, List.mem_append, mem_entryCap, mem_specCollect v x,
      mem_specCollectEntries t x]
    constructor
    · rintro (⟨h1, rfl, h3⟩ | ⟨k, hk, h1, h2⟩ | ⟨k, hk, h1, h2⟩)
      · exact ⟨k0, List.mem_cons_self _ _, h1, h3⟩
      · exact ⟨k, List.mem_cons_of_mem _ (List.mem_append_left _ hk), h1, h2⟩
      · exact ⟨k, List.mem_cons_of_mem _ (List.mem_append_right _ hk), h1, h2⟩
    · rintro ⟨k, hk, h1, h2⟩
      rcases List.mem_cons.1 hk with heq | hk2
      · injection heq with he1 he2
        subst he1
        exact Or.inl ⟨h1, he2.symm, h2⟩
      · rcases List.mem_append.1 hk2 with hk3 | hk3
        · exact Or.inr (Or.inl ⟨k, hk3, h1, h2⟩)
        · exact Or.inr (Or.inr ⟨k, hk3, h1, h2⟩)
end

/-- Claim C1 (amended): the structural key-matching strategy returns
exactly the string values of identifier shape sitting under a key whose
maximal ASCII-letter suffix ends in `property` or `Property`, optionally
followed by `name` or `Name` (case-insensitive only on the initial
letters of `Property` and `Name`, not on the whole suffix), where that
letter suffix is the whole key or is directly preceded by a double-quote
character; on the object with entry `filterProperty` to `lead_status` it
returns exactly that value, and on the object with entry `propertyType`
to `ENUMERATION` it returns the empty set. -/
theorem structural_matching_amended :
    (∀ (j : Json) (x : List Char),
        x ∈ extractPropNamesFromJson (stringify j) ↔
          ∃ k, (k, Json.str x) ∈ entriesOf j ∧ keyMatchB k = true ∧ identShape x = true) ∧
    extractPropNamesFromJson (stringify (Json.obj [("filterProperty".data,
        Json.str "lead_status".data)])) = ["lead_status".data] ∧
    extractPropNamesFromJson (stringify (Json.obj [("propertyType".data,
        Json.str "ENUMERATION".data)])) = [] := by
  refine ⟨?_, by rfl, by rfl⟩
  intro j x
  rw [extractPropNamesFromJson, mem_setAddAll]
  have h := scanProps_stringify j [] rfl
  rw [List.append_nil] at h
  rw [h]
  rw [show scanProps ([] : List Char) = [] from rfl, List.append_nil]
  simp only [List.not_mem_nil, false_or]
  exact mem_specCollect j x

/-! ### Cursor Paginator (`paginateHubSpot`, src/unnamed/part_000 lines 252-265)

The transport is modelled as a script: the list of responses the server
returns to the successive requests, each either an HTTP/transport error
or a response body.  The paginator returns `none` when the script is too
short for the loop (outside the modelled domain), otherwise the
propagated error or the accumulated items, together with the parameters
of every request it issued. -/

/-- JavaScript truthiness of a JSON value. -/
def jsTruthy : Json → Bool
  | .null => false
  | .bool b => b
  | .num n => n != 0
  | .str s => !s.isEmpty
  | .arr _ => true
  | .obj _ => true

def lookupEntry : List (List Char × Json) → List Char → Option Json
  | [], _ => none
  | (k', v) :: t, k => if k' = k then some v else lookupEntry t k

/-- Property access `j[k]` / `j.k`: a lookup on objects, `undefined`
(here `none`) on every other value, matching JavaScript autoboxing.
Access on `null` throws and is handled separately by the callers. -/
def jsGet : Json → List Char → Option Json
  | .obj kvs, k => lookupEntry kvs k
  | _, _ => none

/-- Optional chaining `o?.k`: `undefined` when the receiver is
`undefined` or `null`. -/
def optChain (o : Option Json) (k : List Char) : Option Json :=
  match o with
  | some .null => none
  | some j => jsGet j k
  | none => none

/-- An upstream failure: `err.response?.data?.message` when the server
replied with a message body, and `err.message`. -/
structure HttpErr where
  respMsg : Option (List Char)
  msg : List Char
deriving Repr, DecidableEq

/-- What escapes `paginateHubSpot`: the axios error itself, or the
`TypeError` raised by `res.data[key]` on a `null` body. -/
inductive PagErr where
  | http (e : HttpErr)
  | typeError
deriving Repr, DecidableEq

/-- The query parameters of one issued request:
`\x7b limit: 100, ...extra, ...(after ? \x7b after \x7d : \x7b\x7d) \x7d`. -/
structure HsRequest where
  limit : Nat
  extra : List (List Char × Json)
  after : Option Json
deriving Repr, DecidableEq

instance {ε α : Type} [DecidableEq ε] [DecidableEq α] : DecidableEq (Except ε α) := by
  intro a b
  cases a <;> cases b
  case error.error x y => exact decidable_of_iff (x = y) (by simp)
  case ok.ok x y => exact decidable_of_iff (x = y) (by simp)
  all_goals exact isFalse (by intro h; cases h)

/-- `res.data[key]` then `if (Array.isArray(batch)) items.push(...batch)`:
the items a page contributes. -/
def pageItems (body : Json) (key : List Char) : List Json :=
  match jsGet body key with
  | some (.arr l) => l
  | _ => []

/-- `res.data.paging?.next?.after ?? null` as an optional value
(`none` models both `undefined` and `null`). -/
def pageCursor (body : Json) : Option Json :=
  optChain (optChain (jsGet body "paging".data) "next".data) "after".data

/-- `while (after)`: the loop continues only when the cursor is truthy. -/
def cursorTruthy (body : Json) : Bool :=
  match pageCursor body with
  | some v => jsTruthy v
  | none => false

def paginateGo (key : List Char) (extra : List (List Char × Json)) :
    Option Json → List (Except HttpErr Json) →
    Option (Except PagErr (List Json) × List HsRequest)
  | _, [] => none
  | after, resp :: rest =>
    let req : HsRequest := ⟨100, extra, after⟩
    match resp with
    | .error e => some (.error (.http e), [req])
    | .ok body =>
      if body = .null then some (.error .typeError, [req])
      else
        if cursorTruthy body then
          match paginateGo key extra (pageCursor body) rest with
          | some (.ok items', reqs) => some (.ok (pageItems body key ++ items'), req :: reqs)
          | some (.error e, reqs) => some (.error e, req :: reqs)
          | none => none
        else some (.ok (pageItems body key), [req])

/-- `paginateHubSpot(token, url, key, extra)` run against a response
script; the first request carries no `after` parameter. -/
def paginateHubSpot (key : List Char) (extra : List (List Char × Json))
    (script : List (Except HttpErr Json)) :
    Option (Except PagErr (List Json) × List HsRequest) :=
  paginateGo key extra none script

/-- The request sequence the loop issues over a list of page bodies:
`limit=100` and the extra parameters on every request, the previous
page's cursor threaded through. -/
def chainReqs (extra : List (List Char × Json)) :
    Option Json → List Json → List HsRequest
  | _, [] => []
  | after, b :: t => ⟨100, extra, after⟩ :: chainReqs extra (pageCursor b) t

/-- A full pagination conversation: every page is a non-null body, every
page but the last carries a truthy cursor, the last does not. -/
def goodChain : List Json → Bool
  | [] => false
  | [b] => !(b == .null) && !cursorTruthy b
  | b :: b2 :: t => !(b == .null) && cursorTruthy b && goodChain (b2 :: t)

/-- A conversation in which the loop keeps going: non-null bodies, all
with truthy cursors. -/
def contChain : List Json → Bool
  | [] => true
  | b :: t => !(b == .null) && cursorTruthy b && contChain t

/-- The cursor in hand after consuming the given pages. -/
def chainCursor (after : Option Json) : List Json → Option Json
  | [] => after
  | b :: t => chainCursor (pageCursor b) t

theorem paginateGo_ok_of_goodChain (key : List Char) (extra : List (List Char × Json))
    (bodies : List Json) (after : Option Json) (h : goodChain bodies = true) :
    paginateGo key extra after (bodies.map Except.ok) =
      some (.ok (bodies.flatMap (fun b => pageItems b key)), chainReqs extra after bodies) := by
  induction bodies generalizing after with
  | nil => exact absurd h (by simp [goodChain])
  | cons b t ih =>
    cases t with
    | nil =>
      simp only [goodChain, Bool.and_eq_true, Bool.not_eq_true', beq_eq_false_iff_ne] at h
      simp [paginateGo, chainReqs, h.1, h.2]
    | cons b2 t2 =>
      rw [goodChain] at h
      simp only [Bool.and_eq_true, Bool.not_eq_true', beq_eq_false_iff_ne] at h
      obtain ⟨⟨hb, hcur⟩, hrest⟩ := h
      rw [List.map_cons, paginateGo]
      simp only [if_neg hb, if_pos hcur, ih _ hrest]
      simp [chainReqs]

theorem paginateGo_err_of_contChain (key : List Char) (extra : List (List Char × Json))
    (pre : List Json) (e : HttpErr) (tail : List (Except HttpErr Json))
    (after : Option Json) (h : contChain pre = true) :
    paginateGo key extra after (pre.map Except.ok ++ Except.error e :: tail) =
      some (.error (.http e), chainReqs extra after pre ++
        [⟨100, extra, chainCursor after pre⟩]) := by
  induction pre generalizing after with
  | nil => simp [paginateGo, chainReqs, chainCursor]
  | cons b t ih =>
    rw [contChain] at h
    simp only [Bool.and_eq_true, Bool.not_eq_true', beq_eq_false_iff_ne] at h
    obtain ⟨⟨hb, hcur⟩, hrest⟩ := h
    rw [List.map_cons, List.cons_append, paginateGo]
    simp only [if_neg hb, if_pos hcur, ih _ hrest]
    simp [chainReqs, chainCursor]

theorem chainReqs_length (extra : List (List Char × Json)) (after : Option Json)
    (bodies : List Json) : (chainReqs extra after bodies).length = bodies.length := by
  induction bodies generalizing after with
  | nil => rfl
  | cons b t ih => simp [chainReqs, ih]

theorem chainReqs_fields (extra : List (List Char × Json)) (after : Option Json)
    (bodies : List Json) :
    ∀ r ∈ chainReqs extra after bodies, r.limit = 100 ∧ r.extra = extra := by
  induction bodies generalizing after with
  | nil => simp [chainReqs]
  | cons b t ih =>
    intro r hr
    rw [chainReqs] at hr
    rcases List.mem_cons.mp hr with h | h
    · subst h; exact ⟨rfl, rfl⟩
    · exact ih _ r h

/-- C4: the Cursor Paginator drains a terminating cursor chain, issuing
one `limit=100` request per page with the previous cursor threaded
through, returning the pages' items concatenated in fetch order; a
failing page request propagates immediately with no partial result. -/
theorem cursor_paginator_spec (key : List Char) (extra : List (List Char × Json))
    (bodies pre : List Json) (e : HttpErr) (tail : List (Except HttpErr Json)) :
    (goodChain bodies = true →
      paginateHubSpot key extra (bodies.map Except.ok) =
        some (.ok (bodies.flatMap (fun b => pageItems b key)), chainReqs extra none bodies) ∧
      (chainReqs extra none bodies).length = bodies.length ∧
      ∀ r ∈ chainReqs extra none bodies, r.limit = 100 ∧ r.extra = extra) ∧
    (contChain pre = true →
      paginateHubSpot key extra (pre.map Except.ok ++ Except.error e :: tail) =
        some (.error (.http e),
          chainReqs extra none pre ++ [⟨100, extra, chainCursor none pre⟩])) :=
  ⟨fun h => ⟨paginateGo_ok_of_goodChain key extra bodies none h,
    chainReqs_length extra none bodies, chainReqs_fields extra none bodies⟩,
   fun h => paginateGo_err_of_contChain key extra pre e tail none h⟩

/-- First witness page: items 0..99 and a cursor. -/
def pageA : Json :=
  Json.obj [("results".data, Json.arr ((List.range' 0 100).map (fun n => Json.num n))),
            ("paging".data, Json.obj [("next".data,
              Json.obj [("after".data, Json.str "tok1".data)])])]

/-- Second witness page: items 100..199 and a cursor. -/
def pageB : Json :=
  Json.obj [("results".data, Json.arr ((List.range' 100 100).map (fun n => Json.num n))),
            ("paging".data, Json.obj [("next".data,
              Json.obj [("after".data, Json.str "tok2".data)])])]

/-- Third witness page: items 200..236 and no cursor. -/
def pageC : Json :=
  Json.obj [("results".data, Json.arr ((List.range' 200 37).map (fun n => Json.num n)))]

set_option maxRecDepth 8000 in
/-- Witness for `cursor_paginator_spec`: 3 pages of 100/100/37 items give
237 items in original order using exactly 3 requests; an error page
propagates. -/
theorem cursor_paginator_spec_witness :
    paginateHubSpot "results".data [] ([pageA, pageB, pageC].map Except.ok) =
      some (.ok ((List.range' 0 237).map (fun n => Json.num n)),
        chainReqs [] none [pageA, pageB, pageC]) ∧
    (chainReqs [] none [pageA, pageB, pageC]).length = 3 ∧
    paginateHubSpot "results".data [] [Except.error ⟨none, "boom".data⟩] =
      some (.error (.http ⟨none, "boom".data⟩), [⟨100, [], none⟩]) := by
  have h := (cursor_paginator_spec "results".data [] [pageA, pageB, pageC] []
    ⟨none, "boom".data⟩ []).1 (by decide)
  have herr := (cursor_paginator_spec "results".data [] [pageA, pageB, pageC] []
    ⟨none, "boom".data⟩ []).2 (by decide)
  refine ⟨?_, h.2.1, ?_⟩
  · rw [h.1]
    decide
  · simpa using herr

/-- C10 as stated is false: a `null` response body is a body without the
configured item key (property access yields nothing), yet `res.data[key]`
on a `null` body raises a TypeError before the `Array.isArray` guard
runs, so this malformed page makes the paginator itself fail instead of
contributing zero items and continuing on the cursor. -/
theorem malformed_page_claim_false :
    jsGet Json.null "results".data = none ∧
    paginateHubSpot "results".data [] [Except.ok Json.null] =
      some (.error PagErr.typeError, [⟨100, [], none⟩]) :=
  ⟨rfl, rfl⟩

/-- Claim C10 (amended): a non-null page body that lacks the configured
item key, or whose value under that key is not an array, contributes
zero items; the paginator still succeeds over any chain of non-null
bodies, continuing or stopping solely on the cursor.  (A `null` body is
excluded: `res.data[key]` throws on it.) -/
theorem malformed_page_tolerated (key : List Char) (extra : List (List Char × Json))
    (bodies : List Json) :
    (∀ b : Json, (∀ l, jsGet b key ≠ some (.arr l)) → pageItems b key = []) ∧
    (goodChain bodies = true →
      paginateHubSpot key extra (bodies.map Except.ok) =
        some (.ok (bodies.flatMap (fun b => pageItems b key)), chainReqs extra none bodies)) := by
  constructor
  · intro b hb
    rw [pageItems]
    cases hg : jsGet b key with
    | none => rfl
    | some v =>
      cases v with
      | arr l => exact absurd hg (hb l)
      | null => rfl
      | bool b2 => rfl
      | num n => rfl
      | str s => rfl
      | obj kvs => rfl
  · exact fun h => paginateGo_ok_of_goodChain key extra bodies none h

/-- Witness for `malformed_page_tolerated`: a page without the item key
(but with a cursor) and a page whose item key holds a number both
contribute zero items, and the run still succeeds with 2 requests. -/
theorem malformed_page_tolerated_witness :
    paginateHubSpot "results".data []
        ([Json.obj [("paging".data, Json.obj [("next".data,
            Json.obj [("after".data, Json.str "t".data)])])],
          Json.obj [("results".data, Json.num 5)]].map Except.ok) =
      some (.ok [], [⟨100, [], none⟩, ⟨100, [], some (Json.str "t".data)⟩]) ∧
    pageItems (Json.obj [("results".data, Json.num 5)]) "results".data = [] := by
  constructor
  · have h := (malformed_page_tolerated "results".data []
      [Json.obj [("paging".data, Json.obj [("next".data,
          Json.obj [("after".data, Json.str "t".data)])])],
        Json.obj [("results".data, Json.num 5)]]).2 (by decide)
    rw [h]
    decide
  · exact (malformed_page_tolerated "results".data [] []).1
      (Json.obj [("results".data, Json.num 5)])
      (fun l h => Json.noConfusion (Option.some.inj h))

/-! ### Form walk (`extractFormProps`, src/unnamed/part_000 lines 346-386)

The dedicated form walk is a recursive traversal with a mutable `names`
set.  It is embedded in an `Option` monad: `none` models the `TypeError`
raised when a `for...of` loop hits a truthy non-iterable value or a
property is read off `null`; the exception escapes `extractFormProps`
and is caught by the aggregator's per-source handler.  The recursion is
fuelled; the fuel is one more than the structural size of the form, and
every recursive call descends into the form's subtree, so the fuel never
runs out on a form the walk actually terminates on. -/

mutual
def jsize : Json → Nat
  | .arr es => 1 + jsizeList es
  | .obj kvs => 1 + jsizeEntries kvs
  | _ => 1
def jsizeList : List Json → Nat
  | [] => 0
  | x :: t => 1 + jsize x + jsizeList t
def jsizeEntries : List (List Char × Json) → Nat
  | [] => 0
  | (_, v) :: t => 1 + jsize v + jsizeEntries t
end

/-- `for (const x of (e || []))` for an optional field value: absent or
falsy values (including `null`, `false`, `0` and the empty string)
iterate zero times; an array iterates its elements; a non-empty string
iterates its characters, each a one-character string carrying none of
the object properties this walk reads, so the iteration contributes
nothing and is modelled as zero iterations; any other truthy value
(object, `true`, non-zero number) is not iterable and raises a
`TypeError`. -/
def iterElems : Option Json → Option (List Json)
  | none => some []
  | some .null => some []
  | some (.bool false) => some []
  | some (.bool true) => none
  | some (.num n) => if n = 0 then some [] else none
  | some (.str _) => some []
  | some (.arr l) => some l
  | some (.obj _) => none

mutual
/-- Processing one field inside `scanFields`: record a truthy `name`,
then walk `dependentFields[].dependentFieldFilters[].dependentFormField`
and the legacy `dependentFields[].fields` sub-list.  Reading properties
off a `null` field raises a `TypeError`. -/
def scanFieldF : Nat → List Json → Json → Option (List Json)
  | 0, _, _ => none
  | fuel + 1, acc, field =>
    if field = .null then none
    else
      let acc1 := match jsGet field ("name".data) with
        | some v => if jsTruthy v then setAdd acc v else acc
        | none => acc
      match iterElems (jsGet field ("dependentFields".data)) with
      | none => none
      | some deps => scanDepsF fuel acc1 deps
def scanDepsF : Nat → List Json → List Json → Option (List Json)
  | 0, _, _ => none
  | _ + 1, acc, [] => some acc
  | fuel + 1, acc, dep :: rest =>
    if dep = .null then none
    else
      match iterElems (jsGet dep ("dependentFieldFilters".data)) with
      | none => none
      | some filters =>
        match scanFiltersF fuel acc filters with
        | none => none
        | some acc2 =>
          match iterElems (jsGet dep ("fields".data)) with
          | none => none
          | some fs =>
            match scanFieldsF fuel acc2 fs with
            | none => none
            | some acc3 => scanDepsF fuel acc3 rest
def scanFiltersF : Nat → List Json → List Json → Option (List Json)
  | 0, _, _ => none
  | _ + 1, acc, [] => some acc
  | fuel + 1, acc, filter :: rest =>
    if filter = .null then none
    else
      let step : Option (List Json) :=
        match jsGet filter ("dependentFormField".data) with
        | some dff => if jsTruthy dff then scanFieldF fuel acc dff else some acc
        | none => some acc
      match step with
      | none => none
      | some acc2 => scanFiltersF fuel acc2 rest
def scanFieldsF : Nat → List Json → List Json → Option (List Json)
  | 0, _, _ => none
  | _ + 1, acc, [] => some acc
  | fuel + 1, acc, f :: rest =>
    match scanFieldF fuel acc f with
    | none => none
    | some acc2 => scanFieldsF fuel acc2 rest
end

/-- `for (const group of (form.fieldGroups || [])) scanFields(group.fields)`. -/
def scanGroupsF : Nat → List Json → List Json → Option (List Json)
  | _, acc, [] => some acc
  | fuel, acc, g :: rest =>
    if g = .null then none
    else
      match iterElems (jsGet g ("fields".data)) with
      | none => none
      | some fs =>
        match scanFieldsF fuel acc fs with
        | none => none
        | some acc2 => scanGroupsF fuel acc2 rest

/-- `for (const row of legacyFields) scanFields(row)`. -/
def scanRowsF : Nat → List Json → List Json → Option (List Json)
  | _, acc, [] => some acc
  | fuel, acc, row :: rest =>
    match iterElems (some row) with
    | none => none
    | some fs =>
      match scanFieldsF fuel acc fs with
      | none => none
      | some acc2 => scanRowsF fuel acc2 rest

/-- Is the legacy `formFields` list in row-major layout?
`legacyFields.length > 0 && Array.isArray(legacyFields[0])`. -/
def isRowMajor : List Json → Bool
  | (.arr _) :: _ => true
  | _ => false

/-- `extractFormProps(form)`: the v3 `fieldGroups[].fields[]` walk
followed by the legacy `formFields` walk (flat or row-major). -/
def extractFormProps (form : Json) : Option (List Json) :=
  let fuel := jsize form + 1
  if form = .null then none
  else
    match iterElems (jsGet form ("fieldGroups".data)) with
    | none => none
    | some groups =>
      match scanGroupsF fuel [] groups with
      | none => none
      | some acc1 =>
        match jsGet form ("formFields".data) with
        | some (.arr lf) =>
          if isRowMajor lf then scanRowsF fuel acc1 lf
          else scanFieldsF fuel acc1 lf
        | _ => some acc1

/-! ### Claim-side reachability for the form walk -/

/-- `x` is produced by iterating the optional value `o`. -/
def IterMem (x : Json) (o : Option Json) : Prop :=
  ∃ l, iterElems o = some l ∧ x ∈ l

/-- The names reachable from one field, as the claim describes them: the
field's own truthy `name`, plus names reachable recursively through
`dependentFields[].dependentFieldFilters[].dependentFormField` and
through the legacy `dependentFields[].fields` sub-list. -/
inductive FieldReach : Json → Json → Prop where
  | name (f v : Json) : jsGet f ("name".data) = some v → jsTruthy v = true →
      FieldReach f v
  | filterField (f dep filt dff v : Json) :
      IterMem dep (jsGet f ("dependentFields".data)) →
      IterMem filt (jsGet dep ("dependentFieldFilters".data)) →
      jsGet filt ("dependentFormField".data) = some dff → jsTruthy dff = true →
      FieldReach dff v → FieldReach f v
  | depFields (f dep g v : Json) :
      IterMem dep (jsGet f ("dependentFields".data)) →
      IterMem g (jsGet dep ("fields".data)) →
      FieldReach g v → FieldReach f v

/-- The names the claim says the form walk returns: every field name
reachable under `fieldGroups[].fields[]`, plus every field name under
the legacy `formFields` list, flat or row-major. -/
def FormReach (form v : Json) : Prop :=
  (∃ g, IterMem g (jsGet form ("fieldGroups".data)) ∧
    ∃ f, IterMem f (jsGet g ("fields".data)) ∧ FieldReach f v) ∨
  (∃ lf, jsGet form ("formFields".data) = some (.arr lf) ∧
    ((isRowMajor lf = true ∧ ∃ row ∈ lf, ∃ f, IterMem f (some row) ∧ FieldReach f v) ∨
     (isRowMajor lf = false ∧ ∃ f ∈ lf, FieldReach f v)))

/-- Names contributed by one filter entry. -/
def FiltReach (filt v : Json) : Prop :=
  ∃ dff, jsGet filt ("dependentFormField".data) = some dff ∧ jsTruthy dff = true ∧
    FieldReach dff v

/-- Names contributed by one dependent-field entry: its filters'
`dependentFormField` sub-fields and its legacy `fields` sub-list. -/
def DepReach (dep v : Json) : Prop :=
  (∃ filt, IterMem filt (jsGet dep ("dependentFieldFilters".data)) ∧ FiltReach filt v) ∨
  (∃ g, IterMem g (jsGet dep ("fields".data)) ∧ FieldReach g v)

theorem fieldReach_iff (f v : Json) :
    FieldReach f v ↔
      (jsGet f ("name".data) = some v ∧ jsTruthy v = true) ∨
      (∃ dep, IterMem dep (jsGet f ("dependentFields".data)) ∧ DepReach dep v) := by
  constructor
  · intro h
    cases h with
    | name f v hn ht => exact Or.inl ⟨hn, ht⟩
    | filterField f dep filt dff v hdep hfilt hdff ht hr =>
      exact Or.inr ⟨dep, hdep, Or.inl ⟨filt, hfilt, dff, hdff, ht, hr⟩⟩
    | depFields f dep g v hdep hg hr =>
      exact Or.inr ⟨dep, hdep, Or.inr ⟨g, hg, hr⟩⟩
  · rintro (⟨hn, ht⟩ | ⟨dep, hdep, hdr⟩)
    · exact FieldReach.name f v hn ht
    · rcases hdr with ⟨filt, hfilt, dff, hdff, ht, hr⟩ | ⟨g, hg, hr⟩
      · exact FieldReach.filterField f dep filt dff v hdep hfilt hdff ht hr
      · exact FieldReach.depFields f dep g v hdep hg hr

theorem scan_sound : ∀ fuel : Nat,
    (∀ acc f out, scanFieldF fuel acc f = some out →
      ∀ v, (v ∈ out ↔ v ∈ acc ∨ FieldReach f v)) ∧
    (∀ acc deps out, scanDepsF fuel acc deps = some out →
      ∀ v, (v ∈ out ↔ v ∈ acc ∨ ∃ dep ∈ deps, DepReach dep v)) ∧
    (∀ acc filters out, scanFiltersF fuel acc filters = some out →
      ∀ v, (v ∈ out ↔ v ∈ acc ∨ ∃ filt ∈ filters, FiltReach filt v)) ∧
    (∀ acc l out, scanFieldsF fuel acc l = some out →
      ∀ v, (v ∈ out ↔ v ∈ acc ∨ ∃ f ∈ l, FieldReach f v)) := by
  intro fuel
  induction fuel with
  | zero =>
    refine ⟨?_, ?_, ?_, ?_⟩ <;> intro acc x out h <;> simp [scanFieldF, scanDepsF,
      scanFiltersF, scanFieldsF] at h
  | succ fuel ih =>
    obtain ⟨ihP, ihR, ihS, ihQ⟩ := ih
    refine ⟨?_, ?_, ?_, ?_⟩
    · -- scanFieldF
      intro acc f out h v
      rw [scanFieldF] at h
      by_cases hf : f = Json.null
      · rw [if_pos hf] at h; cases h
      rw [if_neg hf] at h
      cases hdeps : iterElems (jsGet f ("dependentFields".data)) with
      | none =>
        simp only [hdeps] at h
        exact Option.noConfusion h
      | some deps =>
        simp only [hdeps] at h
        rw [fieldReach_iff]
        cases hn : jsGet f ("name".data) with
        | none =>
          simp only [hn] at h
          rw [ihR _ _ _ h v]
          constructor
          · rintro (hv | ⟨dep, hdep, hdr⟩)
            · exact Or.inl hv
            · exact Or.inr (Or.inr ⟨dep, ⟨deps, hdeps, hdep⟩, hdr⟩)
          · rintro (hv | ⟨hnv, _⟩ | ⟨dep, ⟨l, hl, hdep⟩, hdr⟩)
            · exact Or.inl hv
            · exact Option.noConfusion hnv
            · rw [hdeps] at hl
              cases hl
              exact Or.inr ⟨dep, hdep, hdr⟩
        | some nm =>
          simp only [hn] at h
          cases ht : jsTruthy nm with
          | true =>
            simp only [ht, if_true] at h
            rw [ihR _ _ _ h v, mem_setAdd]
            constructor
            · rintro ((hv | rfl) | ⟨dep, hdep, hdr⟩)
              · exact Or.inl hv
              · exact Or.inr (Or.inl ⟨rfl, ht⟩)
              · exact Or.inr (Or.inr ⟨dep, ⟨deps, hdeps, hdep⟩, hdr⟩)
            · rintro (hv | ⟨hnv, htv⟩ | ⟨dep, ⟨l, hl, hdep⟩, hdr⟩)
              · exact Or.inl (Or.inl hv)
              · cases hnv
                exact Or.inl (Or.inr rfl)
              · rw [hdeps] at hl
                cases hl
                exact Or.inr ⟨dep, hdep, hdr⟩
          | false =>
            simp only [ht, Bool.false_eq_true, if_false] at h
            rw [ihR _ _ _ h v]
            constructor
            · rintro (hv | ⟨dep, hdep, hdr⟩)
              · exact Or.inl hv
              · exact Or.inr (Or.inr ⟨dep, ⟨deps, hdeps, hdep⟩, hdr⟩)
            · rintro (hv | ⟨hnv, htv⟩ | ⟨dep, ⟨l, hl, hdep⟩, hdr⟩)
              · exact Or.inl hv
              · cases hnv
                rw [ht] at htv
                exact Bool.noConfusion htv
              · rw [hdeps] at hl
                cases hl
                exact Or.inr ⟨dep, hdep, hdr⟩
    · -- scanDepsF
      intro acc deps out h v
      cases deps with
      | nil =>
        rw [scanDepsF] at h
        cases h
        simp
      | cons dep rest =>
        rw [scanDepsF] at h
        by_cases hdn : dep = Json.null
        · rw [if_pos hdn] at h; cases h
        rw [if_neg hdn] at h
        cases hfilters : iterElems (jsGet dep ("dependentFieldFilters".data)) with
        | none =>
          simp only [hfilters] at h
          exact Option.noConfusion h
        | some filters =>
          simp only [hfilters] at h
          cases hacc2 : scanFiltersF fuel acc filters with
          | none =>
            simp only [hacc2] at h
            exact Option.noConfusion h
          | some acc2 =>
            simp only [hacc2] at h
            cases hfs : iterElems (jsGet dep ("fields".data)) with
            | none =>
              simp only [hfs] at h
              exact Option.noConfusion h
            | some fs =>
              simp only [hfs] at h
              cases hacc3 : scanFieldsF fuel acc2 fs with
              | none =>
                simp only [hacc3] at h
                exact Option.noConfusion h
              | some acc3 =>
                simp only [hacc3] at h
                rw [ihR _ _ _ h v, ihQ _ _ _ hacc3 v, ihS _ _ _ hacc2 v]
                simp only [List.mem_cons, exists_eq_or_imp]
                constructor
                · rintro (((hv | hfilt) | hfld) | hrest)
                  · exact Or.inl hv
                  · rcases hfilt with ⟨filt, hmem, hfr⟩
                    exact Or.inr (Or.inl (Or.inl ⟨filt, ⟨filters, hfilters, hmem⟩, hfr⟩))
                  · rcases hfld with ⟨g, hmem, hgr⟩
                    exact Or.inr (Or.inl (Or.inr ⟨g, ⟨fs, hfs, hmem⟩, hgr⟩))
                  · exact Or.inr (Or.inr hrest)
                · rintro (hv | (⟨filt, ⟨l1, hl1, hmem⟩, hfr⟩ | ⟨g, ⟨l2, hl2, hmem⟩, hgr⟩) | hrest)
                  · exact Or.inl (Or.inl (Or.inl hv))
                  · rw [hfilters] at hl1
                    cases hl1
                    exact Or.inl (Or.inl (Or.inr ⟨filt, hmem, hfr⟩))
                  · rw [hfs] at hl2
                    cases hl2
                    exact Or.inl (Or.inr ⟨g, hmem, hgr⟩)
                  · exact Or.inr hrest
    · -- scanFiltersF
      intro acc filters out h v
      cases filters with
      | nil =>
        rw [scanFiltersF] at h
        cases h
        simp
      | cons filt rest =>
        rw [scanFiltersF] at h
        by_cases hfn : filt = Json.null
        · rw [if_pos hfn] at h; cases h
        rw [if_neg hfn] at h
        simp only [List.mem_cons, exists_eq_or_imp]
        cases hdff : jsGet filt ("dependentFormField".data) with
        | none =>
          simp only [hdff] at h
          rw [ihS _ _ _ h v]
          constructor
          · rintro (hv | hrest)
            · exact Or.inl hv
            · exact Or.inr (Or.inr hrest)
          · rintro (hv | ⟨dff, hd, _⟩ | hrest)
            · exact Or.inl hv
            · rw [hdff] at hd
              exact Option.noConfusion hd
            · exact Or.inr hrest
        | some dff =>
          simp only [hdff] at h
          cases ht : jsTruthy dff with
          | true =>
            simp only [ht, if_true] at h
            cases hstep : scanFieldF fuel acc dff with
            | none =>
              simp only [hstep] at h
              exact Option.noConfusion h
            | some acc2 =>
              simp only [hstep] at h
              rw [ihS _ _ _ h v, ihP _ _ _ hstep v]
              constructor
              · rintro ((hv | hr) | hrest)
                · exact Or.inl hv
                · exact Or.inr (Or.inl ⟨dff, hdff, ht, hr⟩)
                · exact Or.inr (Or.inr hrest)
              · rintro (hv | ⟨dff2, hd2, ht2, hr2⟩ | hrest)
                · exact Or.inl (Or.inl hv)
                · rw [hdff] at hd2
                  cases hd2
                  exact Or.inl (Or.inr hr2)
                · exact Or.inr hrest
          | false =>
            simp only [ht, Bool.false_eq_true, if_false] at h
            rw [ihS _ _ _ h v]
            constructor
            · rintro (hv | hrest)
              · exact Or.inl hv
              · exact Or.inr (Or.inr hrest)
            · rintro (hv | ⟨dff2, hd2, ht2, _⟩ | hrest)
              · exact Or.inl hv
              · rw [hdff] at hd2
                cases hd2
                rw [ht] at ht2
                exact Bool.noConfusion ht2
              · exact Or.inr hrest
    · -- scanFieldsF
      intro acc l out h v
      cases l with
      | nil =>
        rw [scanFieldsF] at h
        cases h
        simp
      | cons f rest =>
        rw [scanFieldsF] at h
        cases hstep : scanFieldF fuel acc f with
        | none =>
          simp only [hstep] at h
          exact Option.noConfusion h
        | some acc2 =>
          simp only [hstep] at h
          rw [ihQ _ _ _ h v, ihP _ _ _ hstep v]
          simp only [List.mem_cons, exists_eq_or_imp]
          tauto

theorem scanGroups_sound (fuel : Nat) (groups : List Json) :
    ∀ acc out, scanGroupsF fuel acc groups = some out →
      ∀ v, (v ∈ out ↔ v ∈ acc ∨
        ∃ g ∈ groups, ∃ f, IterMem f (jsGet g ("fields".data)) ∧ FieldReach f v) := by
  induction groups with
  | nil =>
    intro acc out h v
    rw [scanGroupsF] at h
    cases h
    simp
  | cons g rest ih =>
    intro acc out h v
    rw [scanGroupsF] at h
    by_cases hg : g = Json.null
    · rw [if_pos hg] at h; cases h
    rw [if_neg hg] at h
    cases hfs : iterElems (jsGet g ("fields".data)) with
    | none =>
      simp only [hfs] at h
      exact Option.noConfusion h
    | some fs =>
      simp only [hfs] at h
      cases hacc2 : scanFieldsF fuel acc fs with
      | none =>
        simp only [hacc2] at h
        exact Option.noConfusion h
      | some acc2 =>
        simp only [hacc2] at h
        rw [ih _ _ h v, (scan_sound fuel).2.2.2 _ _ _ hacc2 v]
        simp only [List.mem_cons, exists_eq_or_imp]
        constructor
        · rintro ((hv | ⟨f, hmem, hr⟩) | hrest)
          · exact Or.inl hv
          · exact Or.inr (Or.inl ⟨f, ⟨fs, hfs, hmem⟩, hr⟩)
          · exact Or.inr (Or.inr hrest)
        · rintro (hv | ⟨f, ⟨l, hl, hmem⟩, hr⟩ | hrest)
          · exact Or.inl (Or.inl hv)
          · rw [hfs] at hl
            cases hl
            exact Or.inl (Or.inr ⟨f, hmem, hr⟩)
          · exact Or.inr hrest

theorem scanRows_sound (fuel : Nat) (rows : List Json) :
    ∀ acc out, scanRowsF fuel acc rows = some out →
      ∀ v, (v ∈ out ↔ v ∈ acc ∨
        ∃ row ∈ rows, ∃ f, IterMem f (some row) ∧ FieldReach f v) := by
  induction rows with
  | nil =>
    intro acc out h v
    rw [scanRowsF] at h
    cases h
    simp
  | cons row rest ih =>
    intro acc out h v
    rw [scanRowsF] at h
    cases hfs : iterElems (some row) with
    | none =>
      simp only [hfs] at h
      exact Option.noConfusion h
    | some fs =>
      simp only [hfs] at h
      cases hacc2 : scanFieldsF fuel acc fs with
      | none =>
        simp only [hacc2] at h
        exact Option.noConfusion h
      | some acc2 =>
        simp only [hacc2] at h
        rw [ih _ _ h v, (scan_sound fuel).2.2.2 _ _ _ hacc2 v]
        simp only [List.mem_cons, exists_eq_or_imp]
        constructor
        · rintro ((hv | ⟨f, hmem, hr⟩) | hrest)
          · exact Or.inl hv
          · exact Or.inr (Or.inl ⟨f, ⟨fs, hfs, hmem⟩, hr⟩)
          · exact Or.inr (Or.inr hrest)
        · rintro (hv | ⟨f, ⟨l, hl, hmem⟩, hr⟩ | hrest)
          · exact Or.inl (Or.inl hv)
          · rw [hfs] at hl
            cases hl
            exact Or.inl (Or.inr ⟨f, hmem, hr⟩)
          · exact Or.inr hrest

/-- C2: whenever the form walk completes (its `for...of` loops never hit
a truthy non-iterable value), the returned set is exactly the union the
claim describes: every field name reachable under
`fieldGroups[].fields[]` including conditional fields through
`dependentFields[].dependentFieldFilters[].dependentFormField` and the
legacy `dependentFields[].fields` sub-list, plus every field name under
the legacy `formFields` list in flat or row-major layout. -/
theorem form_walk_spec (form : Json) (out : List Json)
    (h : extractFormProps form = some out) (v : Json) : v ∈ out ↔ FormReach form v := by
  rw [extractFormProps] at h
  by_cases hnull : form = Json.null
  · rw [if_pos hnull] at h; cases h
  rw [if_neg hnull] at h
  cases hgroups : iterElems (jsGet form ("fieldGroups".data)) with
  | none =>
    simp only [hgroups] at h
    exact Option.noConfusion h
  | some groups =>
    simp only [hgroups] at h
    cases hacc1 : scanGroupsF (jsize form + 1) [] groups with
    | none =>
      simp only [hacc1] at h
      exact Option.noConfusion h
    | some acc1 =>
      simp only [hacc1] at h
      have hgroupPart := scanGroups_sound (jsize form + 1) groups [] acc1 hacc1 v
      simp only [List.not_mem_nil, false_or] at hgroupPart
      rw [FormReach]
      cases hlf : jsGet form ("formFields".data) with
      | none =>
        simp only [hlf] at h
        cases h
        rw [hgroupPart]
        constructor
        · rintro ⟨g, hmem, hf⟩
          exact Or.inl ⟨g, ⟨groups, hgroups, hmem⟩, hf⟩
        · rintro (⟨g, ⟨l, hl, hmem⟩, hf⟩ | ⟨lf, hlf2, _⟩)
          · rw [hgroups] at hl
            cases hl
            exact ⟨g, hmem, hf⟩
          · exact Option.noConfusion hlf2
      | some lfj =>
        cases lfj with
        | arr lf =>
          simp only [hlf] at h
          by_cases hrm : isRowMajor lf = true
          · rw [if_pos hrm] at h
            rw [scanRows_sound (jsize form + 1) lf acc1 out h v, hgroupPart]
            constructor
            · rintro (⟨g, hmem, hf⟩ | ⟨row, hrow, f, hf, hr⟩)
              · exact Or.inl ⟨g, ⟨groups, hgroups, hmem⟩, hf⟩
              · exact Or.inr ⟨lf, rfl, Or.inl ⟨hrm, row, hrow, f, hf, hr⟩⟩
            · rintro (⟨g, ⟨l, hl, hmem⟩, hf⟩ | ⟨lf2, hlf2, hcase⟩)
              · rw [hgroups] at hl
                cases hl
                exact Or.inl ⟨g, hmem, hf⟩
              · cases hlf2
                rcases hcase with ⟨_, row, hrow, f, hf, hr⟩ | ⟨hrm2, _⟩
                · exact Or.inr ⟨row, hrow, f, hf, hr⟩
                · rw [hrm] at hrm2
                  exact Bool.noConfusion hrm2
          · rw [if_neg hrm] at h
            have hrmf : isRowMajor lf = false := by
              cases hb : isRowMajor lf
              · rfl
              · exact absurd hb hrm
            rw [(scan_sound (jsize form + 1)).2.2.2 acc1 lf out h v, hgroupPart]
            constructor
            · rintro (⟨g, hmem, hf⟩ | ⟨f, hfmem, hr⟩)
              · exact Or.inl ⟨g, ⟨groups, hgroups, hmem⟩, hf⟩
              · exact Or.inr ⟨lf, rfl, Or.inr ⟨hrmf, f, hfmem, hr⟩⟩
            · rintro (⟨g, ⟨l, hl, hmem⟩, hf⟩ | ⟨lf2, hlf2, hcase⟩)
              · rw [hgroups] at hl
                cases hl
                exact Or.inl ⟨g, hmem, hf⟩
              · cases hlf2
                rcases hcase with ⟨hrm2, _⟩ | ⟨_, f, hfmem, hr⟩
                · rw [hrmf] at hrm2
                  exact Bool.noConfusion hrm2
                · exact Or.inr ⟨f, hfmem, hr⟩
        | null =>
          simp only [hlf] at h
          cases h
          rw [hgroupPart]
          constructor
          · rintro ⟨g, hmem, hf⟩
            exact Or.inl ⟨g, ⟨groups, hgroups, hmem⟩, hf⟩
          · rintro (⟨g, ⟨l, hl, hmem⟩, hf⟩ | ⟨lf2, hlf2, _⟩)
            · rw [hgroups] at hl
              cases hl
              exact ⟨g, hmem, hf⟩
            · exact Json.noConfusion (Option.some.inj hlf2)
        | bool b =>
          simp only [hlf] at h
          cases h
          rw [hgroupPart]
          constructor
          · rintro ⟨g, hmem, hf⟩
            exact Or.inl ⟨g, ⟨groups, hgroups, hmem⟩, hf⟩
          · rintro (⟨g, ⟨l, hl, hmem⟩, hf⟩ | ⟨lf2, hlf2, _⟩)
            · rw [hgroups] at hl
              cases hl
              exact ⟨g, hmem, hf⟩
            · exact Json.noConfusion (Option.some.inj hlf2)
        | num n =>
          simp only [hlf] at h
          cases h
          rw [hgroupPart]
          constructor
          · rintro ⟨g, hmem, hf⟩
            exact Or.inl ⟨g, ⟨groups, hgroups, hmem⟩, hf⟩
          · rintro (⟨g, ⟨l, hl, hmem⟩, hf⟩ | ⟨lf2, hlf2, _⟩)
            · rw [hgroups] at hl
              cases hl
              exact ⟨g, hmem, hf⟩
            · exact Json.noConfusion (Option.some.inj hlf2)
        | str s =>
          simp only [hlf] at h
          cases h
          rw [hgroupPart]
          constructor
          · rintro ⟨g, hmem, hf⟩
            exact Or.inl ⟨g, ⟨groups, hgroups, hmem⟩, hf⟩
          · rintro (⟨g, ⟨l, hl, hmem⟩, hf⟩ | ⟨lf2, hlf2, _⟩)
            · rw [hgroups] at hl
              cases hl
              exact ⟨g, hmem, hf⟩
            · exact Json.noConfusion (Option.some.inj hlf2)
        | obj kvs =>
          simp only [hlf] at h
          cases h
          rw [hgroupPart]
          constructor
          · rintro ⟨g, hmem, hf⟩
            exact Or.inl ⟨g, ⟨groups, hgroups, hmem⟩, hf⟩
          · rintro (⟨g, ⟨l, hl, hmem⟩, hf⟩ | ⟨lf2, hlf2, _⟩)
            · rw [hgroups] at hl
              cases hl
              exact ⟨g, hmem, hf⟩
            · exact Json.noConfusion (Option.some.inj hlf2)

/-- A form exercising the v3 walk, the conditional-field recursion, the
legacy dependent `fields` sub-list and the row-major legacy layout. -/
def demoFormC2 : Json :=
  Json.obj [
    ("fieldGroups".data, Json.arr [
      Json.obj [("fields".data, Json.arr [
        Json.obj [("name".data, Json.str "email".data),
          ("dependentFields".data, Json.arr [
            Json.obj [("dependentFieldFilters".data, Json.arr [
                Json.obj [("dependentFormField".data,
                  Json.obj [("name".data, Json.str "cond_field".data)])]]),
              ("fields".data, Json.arr [
                Json.obj [("name".data, Json.str "legacy_dep".data)]])]])]])]]),
    ("formFields".data, Json.arr [
      Json.arr [Json.obj [("name".data, Json.str "row1a".data)]],
      Json.arr [Json.obj [("name".data, Json.str "row2a".data)]]])]

/-- Witness for `form_walk_spec`: on the demo form the walk succeeds and
the conditional field name `cond_field` is in the returned set, hence
reachable exactly as the claim describes. -/
theorem form_walk_spec_witness :
    FormReach demoFormC2 (Json.str "cond_field".data) ∧
    FormReach demoFormC2 (Json.str "row2a".data) :=
  have h1 := form_walk_spec demoFormC2
    [Json.str "email".data, Json.str "cond_field".data, Json.str "legacy_dep".data,
     Json.str "row1a".data, Json.str "row2a".data] (by decide) (Json.str "cond_field".data)
  have h2 := form_walk_spec demoFormC2
    [Json.str "email".data, Json.str "cond_field".data, Json.str "legacy_dep".data,
     Json.str "row1a".data, Json.str "row2a".data] (by decide) (Json.str "row2a".data)
  ⟨h1.mp (by decide), h2.mp (by decide)⟩

/-! ### Usage Aggregator (`POST /api/fetch-usage-context`,
src/unnamed/part_000 lines 479-645)

Each content source is fetched (through the paginator or a direct GET),
and each fetched item is run through its Reference Extractor; every
extracted identifier is added to the source's property set and recorded
in the provenance map by `addUsage`.  A source failure is caught locally
and becomes one warning string; the other sources are unaffected.  The
transport is abstracted by handing the aggregator each source's fetch
outcome. -/

mutual
/-- `String(x)` as used by template literals and property-key coercion:
primitives print their value, arrays join their elements with commas
(null elements print empty), plain objects print `[object Object]`. -/
def jsToStr : Json → List Char
  | .null => "null".data
  | .bool true => "true".data
  | .bool false => "false".data
  | .num n => intChars n
  | .str s => s
  | .arr es => jsToStrElems es
  | .obj _ => "[object Object]".data
def jsToStrElems : List Json → List Char
  | [] => []
  | [x] => if x = .null then [] else jsToStr x
  | x :: y :: t => (if x = .null then [] else jsToStr x) ++ ',' :: jsToStrElems (y :: t)
end

/-- The string a value contributes as a JavaScript object key:
`usageDetails[propName]` coerces a non-string `propName` with
`String`. -/
def jsKeyOf : Json → List Char
  | .str s => s
  | v => jsToStr v

/-- `a || b` for an optionally-present value `a`. -/
def orElseJs (a : Option Json) (b : Json) : Json :=
  match a with
  | some v => if jsTruthy v then v else b
  | none => b

/-- `err.response?.data?.message || err.message`. -/
def errMessage (e : HttpErr) : List Char :=
  match e.respMsg with
  | some m => if m.isEmpty then e.msg else m
  | none => e.msg

/-- The message of the `TypeError` raised by reading a property of
`null` or iterating a non-iterable value (the exact V8 wording is not
modelled; no claim depends on it). -/
def typeErrorMsg : List Char := "TypeError".data

/-- What a source fetch can throw: the axios error, or a `TypeError`
from the paginator or the body handling. -/
inductive FetchErr where
  | http (e : HttpErr)
  | typeErr
deriving Repr, DecidableEq

def fetchErrMsg : FetchErr → List Char
  | .http e => errMessage e
  | .typeErr => typeErrorMsg

/-- The six source kinds, i.e. the strings `'workflows'`, `'forms'`,
`'lists'`, `'pipelines'`, `'reports'`, `'emails'` passed to
`addUsage`. -/
inductive SourceKind where
  | workflows | forms | lists | pipelines | reports | emails
deriving Repr, DecidableEq

/-- `propName -> sourceKind -> [source names]`, insertion-ordered. -/
def UsageMap : Type := List (List Char × List (SourceKind × List Json))

def lookupAssoc [DecidableEq κ] : List (κ × α) → κ → Option α
  | [], _ => none
  | (k', v) :: t, k => if k' = k then some v else lookupAssoc t k

/-- Update the entry at `key` (created from `d` when absent) with `f`,
keeping insertion order. -/
def updateAssoc [DecidableEq κ] (key : κ) (d : α) (f : α → α) :
    List (κ × α) → List (κ × α)
  | [] => [(key, f d)]
  | (k', v) :: t => if k' = key then (k', f v) :: t else (k', v) :: updateAssoc key d f t

/--
`addUsage(propName, type, sourceName)`:

```js
if (!usageDetails[propName]) usageDetails[propName] = {};
if (!usageDetails[propName][type]) usageDetails[propName][type] = [];
if (!usageDetails[propName][type].includes(sourceName)) {
  usageDetails[propName][type].push(sourceName);
}
```

`includes` compares by SameValueZero; the structural equality used here
agrees with it on the primitive names the sources produce. -/
def addUsage (m : UsageMap) (p : List Char) (k : SourceKind) (src : Json) : UsageMap :=
  updateAssoc p [] (fun inner => updateAssoc k [] (fun names => setAdd names src) inner) m

/-- Add one item's extracted names: each goes into the source's property
set and, paired with the item's display name, into the provenance map. -/
def addNames (kind : SourceKind) (srcName : Json) :
    List Json → List Json → UsageMap → List Json × UsageMap
  | [], props, m => (props, m)
  | n :: t, props, m =>
    addNames kind srcName t (setAdd props n) (addUsage m (jsKeyOf n) kind srcName)

/-- Process a source's items in order. -/
def processItems (kind : SourceKind) (provName : Json → Json) (namesOf : Json → List Json) :
    List Json → List Json → UsageMap → List Json × UsageMap
  | [], props, m => (props, m)
  | it :: rest, props, m =>
    let st := addNames kind (provName it) (namesOf it) props m
    processItems kind provName namesOf rest st.1 st.2

/-- Process the form items; `extractFormProps` can throw, in which case
the source stops with its partial state kept (the returned flag marks
the throw). -/
def processFormItems : List Json → List Json → UsageMap → List Json × UsageMap × Bool
  | [], props, m => (props, m, false)
  | f :: rest, props, m =>
    match extractFormProps f with
    | none => (props, m, true)
    | some ns =>
      let st := addNames .forms (orElseJs (jsGet f ("name".data))
        (orElseJs (jsGet f ("id".data)) (Json.str "Unnamed Form".data))) ns props m
      processFormItems rest st.1 st.2

/-- `wf.name || `Workflow ${wf.id || ''}`.trim()`. -/
def wfProvName (wf : Json) : Json :=
  orElseJs (jsGet wf ("name".data))
    (Json.str (jsTrim ("Workflow ".data ++
      (match jsGet wf ("id".data) with
       | some i => if jsTruthy i then jsToStr i else []
       | none => []))))

def formNamesOf (f : Json) : List Json := (extractFormProps f).getD []

def strNames (l : List (List Char)) : List Json := l.map Json.str

def wfNamesOf (wf : Json) : List Json := strNames (extractWorkflowProps wf)

/-- `list.name || list.listId || 'Unnamed List'`. -/
def listProvName (l : Json) : Json :=
  orElseJs (jsGet l ("name".data))
    (orElseJs (jsGet l ("listId".data)) (Json.str "Unnamed List".data))

def listNamesOf (l : Json) : List Json := strNames (extractListProps l)

/-- `email.name || email.id || 'Unnamed Email'`. -/
def emailProvName (e : Json) : Json :=
  orElseJs (jsGet e ("name".data))
    (orElseJs (jsGet e ("id".data)) (Json.str "Unnamed Email".data))

def emailNamesOf (e : Json) : List Json := strNames (extractEmailProps e)

/-- `res.data.objects || res.data.results || []` and
`res.data.results || []`: the item list a non-paginated body yields;
`none` models the `TypeError` of iterating a truthy non-array (reading a
property of `null` is also a throw, handled by the caller). -/
def bodyItems (body : Json) (keys : List (List Char)) : Option (List Json) :=
  match keys with
  | [] => some []
  | k :: rest =>
    match jsGet body k with
    | some v =>
      if jsTruthy v then
        match v with
        | .arr l => some l
        | _ => none
      else bodyItems body rest
    | none => bodyItems body rest

/-- One paginated source: on fetch failure, one warning and nothing
else; on success, every item is extracted and merged. -/
def stagePaginated (kind : SourceKind) (caption : List Char) (provName : Json → Json)
    (namesOf : Json → List Json) (res : Except FetchErr (List Json)) (m : UsageMap) :
    List Json × Nat × Option (List Char) × UsageMap :=
  match res with
  | .error e => ([], 0, some (caption ++ ": ".data ++ fetchErrMsg e), m)
  | .ok items =>
    let st := processItems kind provName namesOf items [] m
    (st.1, items.length, none, st.2)

/-- The forms source: fetch failure or an extraction throw becomes the
warning; an extraction throw keeps the names merged before it. -/
def stageForms (res : Except FetchErr (List Json)) (m : UsageMap) :
    List Json × Nat × Option (List Char) × UsageMap :=
  match res with
  | .error e => ([], 0, some ("Forms: ".data ++ fetchErrMsg e), m)
  | .ok items =>
    match processFormItems items [] m with
    | (props, m', false) => (props, items.length, none, m')
    | (props, m', true) => (props, items.length, some ("Forms: ".data ++ typeErrorMsg), m')

/-- One non-paginated body: `null` bodies and truthy non-array item
lists throw, which the enclosing try converts to the warning. -/
def stageBody (kind : SourceKind) (provName : Json → Json) (namesOf : Json → List Json)
    (keys : List (List Char)) (body : Json) (props : List Json) (m : UsageMap) :
    Option (List Json × Nat × UsageMap) :=
  if body = .null then none
  else
    match bodyItems body keys with
    | none => none
    | some items =>
      let st := processItems kind provName namesOf items props m
      (some (st.1, items.length, st.2))

/-- The pipelines source: two sequential fetches (deals, then tickets)
inside one try; a failure on the second keeps the first's merged data. -/
def pipeProvName (p : Json) : Json :=
  orElseJs (jsGet p ("label".data))
    (orElseJs (jsGet p ("id".data)) (Json.str "Unnamed Pipeline".data))

def pipeNamesOf (p : Json) : List Json := strNames (extractPipelineProps p)

def stagePipelines (res1 res2 : Except FetchErr Json) (m : UsageMap) :
    List Json × Nat × Option (List Char) × UsageMap :=
  match res1 with
  | .error e => ([], 0, some ("Pipelines: ".data ++ fetchErrMsg e), m)
  | .ok body1 =>
    match stageBody .pipelines pipeProvName pipeNamesOf ["results".data] body1 [] m with
    | none => ([], 0, some ("Pipelines: ".data ++ typeErrorMsg), m)
    | some (props1, n1, m1) =>
      match res2 with
      | .error e => (props1, n1, some ("Pipelines: ".data ++ fetchErrMsg e), m1)
      | .ok body2 =>
        match stageBody .pipelines pipeProvName pipeNamesOf ["results".data] body2 props1 m1 with
        | none => (props1, n1, some ("Pipelines: ".data ++ typeErrorMsg), m1)
        | some (props2, n2, m2) => (props2, n1 + n2, none, m2)

/-- The reports source: one fetch, items under `objects` or `results`. -/
def repProvName (r : Json) : Json :=
  orElseJs (jsGet r ("name".data))
    (orElseJs (jsGet r ("id".data)) (Json.str "Unnamed Report".data))

def repNamesOf (r : Json) : List Json := strNames (extractReportProps r)

def stageReports (res : Except FetchErr Json) (m : UsageMap) :
    List Json × Nat × Option (List Char) × UsageMap :=
  match res with
  | .error e => ([], 0, some ("Reports: ".data ++ fetchErrMsg e), m)
  | .ok body =>
    match stageBody .reports repProvName repNamesOf ["objects".data, "results".data] body [] m with
    | none => ([], 0, some ("Reports: ".data ++ typeErrorMsg), m)
    | some (props, n, m') => (props, n, none, m')

/-- The aggregator's response payload. -/
structure UsageContext where
  workflowProperties : List Json
  formProperties : List Json
  listProperties : List Json
  pipelineProperties : List Json
  reportProperties : List Json
  emailProperties : List Json
  propertyUsageDetails : UsageMap
  workflowCount : Nat
  formCount : Nat
  listCount : Nat
  pipelineCount : Nat
  reportCount : Nat
  emailCount : Nat
  warnings : List (List Char)

/-- The whole usage scan, given each source's fetch outcome.  The
sources run in the route's order (workflows, forms, lists, pipelines,
marketing emails, reports), sharing the provenance map and the warnings
list. -/
def fetchUsageContext (wfRes formsRes listsRes emailsRes : Except FetchErr (List Json))
    (pipeRes1 pipeRes2 repRes : Except FetchErr Json) : UsageContext :=
  let s1 := stagePaginated .workflows ("Workflows".data) wfProvName wfNamesOf wfRes []
  let s2 := stageForms formsRes s1.2.2.2
  let s3 := stagePaginated .lists ("Lists".data) listProvName listNamesOf listsRes s2.2.2.2
  let s4 := stagePipelines pipeRes1 pipeRes2 s3.2.2.2
  let s5 := stagePaginated .emails ("Marketing emails".data) emailProvName emailNamesOf
    emailsRes s4.2.2.2
  let s6 := stageReports repRes s5.2.2.2
  { workflowProperties := s1.1
    formProperties := s2.1
    listProperties := s3.1
    pipelineProperties := s4.1
    reportProperties := s6.1
    emailProperties := s5.1
    propertyUsageDetails := s6.2.2.2
    workflowCount := s1.2.1
    formCount := s2.2.1
    listCount := s3.2.1
    pipelineCount := s4.2.1
    reportCount := s6.2.1
    emailCount := s5.2.1
    warnings := (s1.2.2.1.toList ++ s2.2.2.1.toList ++ s3.2.2.1.toList ++
      s4.2.2.1.toList ++ s5.2.2.1.toList ++ s6.2.2.1.toList) }

theorem mem_addNames (kind : SourceKind) (srcName : Json) :
    ∀ (ns props : List Json) (m : UsageMap) (x : Json),
      x ∈ (addNames kind srcName ns props m).1 ↔ x ∈ props ∨ x ∈ ns := by
  intro ns
  induction ns with
  | nil => intro props m x; simp [addNames]
  | cons n t ih =>
    intro props m x
    rw [addNames, ih, mem_setAdd]
    simp only [List.mem_cons]
    tauto

theorem mem_processItems (kind : SourceKind) (pn : Json → Json) (no : Json → List Json) :
    ∀ (items props : List Json) (m : UsageMap) (x : Json),
      x ∈ (processItems kind pn no items props m).1 ↔
        x ∈ props ∨ ∃ it ∈ items, x ∈ no it := by
  intro items
  induction items with
  | nil => intro props m x; simp [processItems]
  | cons it rest ih =>
    intro props m x
    simp only [processItems]
    rw [ih, mem_addNames]
    simp only [List.mem_cons, exists_eq_or_imp]
    tauto

/-- C5: when the forms fetch fails and the five other sources succeed,
the scan still returns every succeeding source's extracted identifier
set, and the warnings list is exactly one entry naming Forms. -/
theorem aggregator_partial_failure
    (wfs lists emails : List Json) (fe : FetchErr) (b1 b2 rb : Json)
    (p1items p2items ritems : List Json)
    (hb1 : b1 ≠ Json.null) (hb1i : bodyItems b1 ["results".data] = some p1items)
    (hb2 : b2 ≠ Json.null) (hb2i : bodyItems b2 ["results".data] = some p2items)
    (hrb : rb ≠ Json.null)
    (hrbi : bodyItems rb ["objects".data, "results".data] = some ritems) :
    (fetchUsageContext (.ok wfs) (.error fe) (.ok lists) (.ok emails)
        (.ok b1) (.ok b2) (.ok rb)).warnings =
      ["Forms: ".data ++ fetchErrMsg fe] ∧
    (fetchUsageContext (.ok wfs) (.error fe) (.ok lists) (.ok emails)
        (.ok b1) (.ok b2) (.ok rb)).formProperties = [] ∧
    (fetchUsageContext (.ok wfs) (.error fe) (.ok lists) (.ok emails)
        (.ok b1) (.ok b2) (.ok rb)).formCount = 0 ∧
    (∀ x, x ∈ (fetchUsageContext (.ok wfs) (.error fe) (.ok lists) (.ok emails)
        (.ok b1) (.ok b2) (.ok rb)).workflowProperties ↔
      ∃ wf ∈ wfs, x ∈ strNames (extractWorkflowProps wf)) ∧
    (∀ x, x ∈ (fetchUsageContext (.ok wfs) (.error fe) (.ok lists) (.ok emails)
        (.ok b1) (.ok b2) (.ok rb)).listProperties ↔
      ∃ l ∈ lists, x ∈ strNames (extractListProps l)) ∧
    (∀ x, x ∈ (fetchUsageContext (.ok wfs) (.error fe) (.ok lists) (.ok emails)
        (.ok b1) (.ok b2) (.ok rb)).emailProperties ↔
      ∃ e ∈ emails, x ∈ strNames (extractEmailProps e)) ∧
    (∀ x, x ∈ (fetchUsageContext (.ok wfs) (.error fe) (.ok lists) (.ok emails)
        (.ok b1) (.ok b2) (.ok rb)).pipelineProperties ↔
      ∃ p ∈ p1items ++ p2items, x ∈ strNames (extractPipelineProps p)) ∧
    (∀ x, x ∈ (fetchUsageContext (.ok wfs) (.error fe) (.ok lists) (.ok emails)
        (.ok b1) (.ok b2) (.ok rb)).reportProperties ↔
      ∃ rep ∈ ritems, x ∈ strNames (extractReportProps rep)) := by
  have h4 : ∀ m : UsageMap, stagePipelines (.ok b1) (.ok b2) m =
      ((processItems .pipelines pipeProvName pipeNamesOf p2items
          (processItems .pipelines pipeProvName pipeNamesOf p1items [] m).1
          (processItems .pipelines pipeProvName pipeNamesOf p1items [] m).2).1,
        p1items.length + p2items.length, none,
        (processItems .pipelines pipeProvName pipeNamesOf p2items
          (processItems .pipelines pipeProvName pipeNamesOf p1items [] m).1
          (processItems .pipelines pipeProvName pipeNamesOf p1items [] m).2).2) := by
    intro m
    rw [stagePipelines]
    simp only [stageBody, if_neg hb1, hb1i, if_neg hb2, hb2i]
  have h6 : ∀ m : UsageMap, stageReports (.ok rb) m =
      ((processItems .reports repProvName repNamesOf ritems [] m).1, ritems.length, none,
        (processItems .reports repProvName repNamesOf ritems [] m).2) := by
    intro m
    rw [stageReports]
    simp only [stageBody, if_neg hrb, hrbi]
  refine ⟨?_, ?_, ?_, ?_, ?_, ?_, ?_, ?_⟩
  · simp [fetchUsageContext, stagePaginated, stageForms, h4, h6]
  · simp [fetchUsageContext, stagePaginated, stageForms, h4, h6]
  · simp [fetchUsageContext, stagePaginated, stageForms, h4, h6]
  · intro x
    simp only [fetchUsageContext, stagePaginated, stageForms, h4, h6]
    simp only [mem_processItems, wfNamesOf]
    simp
  · intro x
    simp only [fetchUsageContext, stagePaginated, stageForms, h4, h6]
    simp only [mem_processItems, listNamesOf]
    simp
  · intro x
    simp only [fetchUsageContext, stagePaginated, stageForms, h4, h6]
    simp only [mem_processItems, emailNamesOf]
    simp
  · intro x
    simp only [fetchUsageContext, stagePaginated, stageForms, h4, h6]
    simp only [mem_processItems, pipeNamesOf, List.not_mem_nil, false_or, List.mem_append]
    constructor
    · rintro (⟨p, hp, hx⟩ | ⟨p, hp, hx⟩)
      · exact ⟨p, Or.inl hp, hx⟩
      · exact ⟨p, Or.inr hp, hx⟩
    · rintro ⟨p, hp | hp, hx⟩
      · exact Or.inl ⟨p, hp, hx⟩
      · exact Or.inr ⟨p, hp, hx⟩
  · intro x
    simp only [fetchUsageContext, stagePaginated, stageForms, h4, h6]
    simp only [mem_processItems, repNamesOf]
    simp

/-! ### The provenance invariant (claim C6) -/

/-- The current per-kind property sets, with kind `k` overridden. -/
def updF (F : SourceKind → List Json) (k : SourceKind) (props : List Json) :
    SourceKind → List Json :=
  fun k' => if k' = k then props else F k'

/-- The claimed invariant: every provenance list is duplicate-free and
non-empty, and its field key belongs to the corresponding kind's
identifier set. -/
def UsageInv (m : UsageMap) (F : SourceKind → List Json) : Prop :=
  ∀ p inner, lookupAssoc m p = some inner →
    ∀ k names, lookupAssoc inner k = some names →
      names.Nodup ∧ names ≠ [] ∧ p ∈ (F k).map jsKeyOf

theorem lookup_updateAssoc [DecidableEq κ] (key : κ) (d : α) (f : α → α) :
    ∀ (l : List (κ × α)) (q : κ), lookupAssoc (updateAssoc key d f l) q =
      if q = key then some (f ((lookupAssoc l key).getD d)) else lookupAssoc l q := by
  intro l
  induction l with
  | nil =>
    intro q
    by_cases h : q = key
    · subst h; simp [updateAssoc, lookupAssoc]
    · simp [updateAssoc, lookupAssoc, h, Ne.symm h]
  | cons kv t ih =>
    intro q
    obtain ⟨k0, v⟩ := kv
    by_cases h0 : k0 = key
    · subst h0
      by_cases h1 : k0 = q
      · subst h1; simp [updateAssoc, lookupAssoc]
      · simp [updateAssoc, lookupAssoc, h1, Ne.symm h1]
    · by_cases h2 : k0 = q
      · subst h2
        simp [updateAssoc, lookupAssoc, h0, Ne.symm h0]
      · by_cases h1 : q = key
        · subst h1
          simp [updateAssoc, lookupAssoc, h0, h2, ih]
        · simp [updateAssoc, lookupAssoc, h0, h2, h1, ih]

theorem setAdd_nodup [DecidableEq α] {l : List α} (h : l.Nodup) (x : α) :
    (setAdd l x).Nodup := by
  rw [setAdd]
  by_cases hx : x ∈ l
  · rw [if_pos hx]; exact h
  · rw [if_neg hx]
    rw [List.nodup_append]
    exact ⟨h, List.nodup_singleton x, by
      intro a ha hax
      rw [List.mem_singleton] at hax
      subst hax
      exact hx ha⟩

theorem setAdd_ne_nil [DecidableEq α] (l : List α) (x : α) : setAdd l x ≠ [] := by
  rw [setAdd]
  by_cases hx : x ∈ l
  · rw [if_pos hx]
    exact List.ne_nil_of_mem hx
  · rw [if_neg hx]
    simp

theorem usageInv_mono {m : UsageMap} {F G : SourceKind → List Json}
    (h : UsageInv m F) (hsub : ∀ k x, x ∈ F k → x ∈ G k) : UsageInv m G := by
  intro p inner hpin k names hkn
  obtain ⟨h1, h2, h3⟩ := h p inner hpin k names hkn
  refine ⟨h1, h2, ?_⟩
  rcases List.mem_map.mp h3 with ⟨x, hx, rfl⟩
  exact List.mem_map.mpr ⟨x, hsub k x hx, rfl⟩

theorem usageInv_addUsage {m : UsageMap} {F : SourceKind → List Json}
    {k : SourceKind} {props : List Json} {n src : Json}
    (h : UsageInv m (updF F k props)) :
    UsageInv (addUsage m (jsKeyOf n) k src) (updF F k (setAdd props n)) := by
  have hmono : ∀ k' x, x ∈ updF F k props k' → x ∈ updF F k (setAdd props n) k' := by
    intro k' x hx
    rw [updF] at hx ⊢
    by_cases hk : k' = k
    · rw [if_pos hk] at hx ⊢
      exact mem_setAdd.mpr (Or.inl hx)
    · rw [if_neg hk] at hx ⊢
      exact hx
  have hmapmono : ∀ (k' : SourceKind) (q : List Char),
      q ∈ (updF F k props k').map jsKeyOf →
      q ∈ (updF F k (setAdd props n) k').map jsKeyOf := by
    intro k' q hq
    rcases List.mem_map.mp hq with ⟨x, hx, rfl⟩
    exact List.mem_map.mpr ⟨x, hmono k' x hx, rfl⟩
  intro p inner hpin k' names hkn
  rw [addUsage, lookup_updateAssoc] at hpin
  by_cases hp : p = jsKeyOf n
  · rw [if_pos hp] at hpin
    cases hpin
    rw [lookup_updateAssoc] at hkn
    by_cases hk : k' = k
    · rw [if_pos hk] at hkn
      cases hkn
      subst hk
      have hmem : p ∈ (updF F k' (setAdd props n) k').map jsKeyOf := by
        rw [updF, if_pos rfl]
        exact List.mem_map.mpr ⟨n, mem_setAdd.mpr (Or.inr rfl), hp.symm⟩
      cases hm : lookupAssoc m (jsKeyOf n) with
      | none =>
        simp only [hm, Option.getD_none, lookupAssoc, Option.getD_none]
        exact ⟨setAdd_nodup (List.nodup_nil) src, setAdd_ne_nil _ _, hmem⟩
      | some inner0 =>
        simp only [hm, Option.getD_some]
        cases hn0 : lookupAssoc inner0 k' with
        | none =>
          simp only [hn0, Option.getD_none]
          exact ⟨setAdd_nodup (List.nodup_nil) src, setAdd_ne_nil _ _, hmem⟩
        | some names0 =>
          simp only [hn0, Option.getD_some]
          obtain ⟨h1, _, _⟩ := h (jsKeyOf n) inner0 hm k' names0 hn0
          exact ⟨setAdd_nodup h1 src, setAdd_ne_nil _ _, hmem⟩
    · rw [if_neg hk] at hkn
      cases hm : lookupAssoc m (jsKeyOf n) with
      | none =>
        rw [hm] at hkn
        simp only [Option.getD_none, lookupAssoc] at hkn
        exact Option.noConfusion hkn
      | some inner0 =>
        rw [hm] at hkn
        simp only [Option.getD_some] at hkn
        obtain ⟨h1, h2, h3⟩ := h (jsKeyOf n) inner0 hm k' names hkn
        refine ⟨h1, h2, ?_⟩
        rw [hp]
        exact hmapmono k' (jsKeyOf n) h3
  · rw [if_neg hp] at hpin
    obtain ⟨h1, h2, h3⟩ := h p inner hpin k' names hkn
    exact ⟨h1, h2, hmapmono k' p h3⟩

theorem usageInv_addNames {F : SourceKind → List Json} {k : SourceKind} {src : Json} :
    ∀ (ns props : List Json) (m : UsageMap), UsageInv m (updF F k props) →
      UsageInv (addNames k src ns props m).2 (updF F k (addNames k src ns props m).1) := by
  intro ns
  induction ns with
  | nil => intro props m h; exact h
  | cons n t ih =>
    intro props m h
    rw [addNames]
    exact ih (setAdd props n) (addUsage m (jsKeyOf n) k src) (usageInv_addUsage h)

theorem usageInv_processItems {F : SourceKind → List Json} {k : SourceKind}
    (pn : Json → Json) (no : Json → List Json) :
    ∀ (items props : List Json) (m : UsageMap), UsageInv m (updF F k props) →
      UsageInv (processItems k pn no items props m).2
        (updF F k (processItems k pn no items props m).1) := by
  intro items
  induction items with
  | nil => intro props m h; exact h
  | cons it rest ih =>
    intro props m h
    simp only [processItems]
    exact ih _ _ (usageInv_addNames (no it) props m h)

theorem usageInv_processForms {F : SourceKind → List Json} :
    ∀ (items props : List Json) (m : UsageMap), UsageInv m (updF F .forms props) →
      UsageInv (processFormItems items props m).2.1
        (updF F .forms (processFormItems items props m).1) := by
  intro items
  induction items with
  | nil => intro props m h; exact h
  | cons f rest ih =>
    intro props m h
    rw [processFormItems]
    cases hx : extractFormProps f with
    | none => exact h
    | some ns =>
      simp only
      exact ih _ _ (usageInv_addNames ns props m h)

theorem usageInv_stagePaginated {F : SourceKind → List Json} (kind : SourceKind)
    (cap : List Char) (pn : Json → Json) (no : Json → List Json)
    (res : Except FetchErr (List Json)) (m : UsageMap)
    (h : UsageInv m (updF F kind [])) :
    UsageInv (stagePaginated kind cap pn no res m).2.2.2
      (updF F kind (stagePaginated kind cap pn no res m).1) := by
  cases res with
  | error e => exact h
  | ok items =>
    simp only [stagePaginated]
    exact usageInv_processItems pn no items [] m h

theorem usageInv_stageForms {F : SourceKind → List Json}
    (res : Except FetchErr (List Json)) (m : UsageMap)
    (h : UsageInv m (updF F .forms [])) :
    UsageInv (stageForms res m).2.2.2 (updF F .forms (stageForms res m).1) := by
  cases res with
  | error e => exact h
  | ok items =>
    have hinv := usageInv_processForms (F := F) items [] m h
    rcases hpf : processFormItems items [] m with ⟨props, m', flag⟩
    rw [hpf] at hinv
    cases flag with
    | false => simp only [stageForms, hpf]; exact hinv
    | true => simp only [stageForms, hpf]; exact hinv

theorem usageInv_stageBody {F : SourceKind → List Json} (kind : SourceKind)
    (pn : Json → Json) (no : Json → List Json) (keys : List (List Char)) (body : Json)
    (props : List Json) (m : UsageMap) (out : List Json × Nat × UsageMap)
    (h : UsageInv m (updF F kind props))
    (hout : stageBody kind pn no keys body props m = some out) :
    UsageInv out.2.2 (updF F kind out.1) := by
  rw [stageBody] at hout
  by_cases hb : body = Json.null
  · rw [if_pos hb] at hout; cases hout
  rw [if_neg hb] at hout
  cases hbi : bodyItems body keys with
  | none => rw [hbi] at hout; cases hout
  | some items =>
    rw [hbi] at hout
    simp only [Option.some.injEq] at hout
    subst hout
    exact usageInv_processItems pn no items props m h

theorem usageInv_stagePipelines {F : SourceKind → List Json}
    (res1 res2 : Except FetchErr Json) (m : UsageMap)
    (h : UsageInv m (updF F .pipelines [])) :
    UsageInv (stagePipelines res1 res2 m).2.2.2
      (updF F .pipelines (stagePipelines res1 res2 m).1) := by
  cases res1 with
  | error e => exact h
  | ok body1 =>
    rw [stagePipelines]
    cases hsb1 : stageBody .pipelines pipeProvName pipeNamesOf ["results".data] body1 [] m with
    | none => exact h
    | some out1 =>
      have h1 := usageInv_stageBody (F := F) .pipelines pipeProvName pipeNamesOf
        ["results".data] body1 [] m out1 h hsb1
      obtain ⟨props1, n1, m1⟩ := out1
      cases res2 with
      | error e => exact h1
      | ok body2 =>
        simp only
        cases hsb2 : stageBody .pipelines pipeProvName pipeNamesOf ["results".data]
            body2 props1 m1 with
        | none => exact h1
        | some out2 =>
          have h2 := usageInv_stageBody (F := F) .pipelines pipeProvName pipeNamesOf
            ["results".data] body2 props1 m1 out2 h1 hsb2
          obtain ⟨props2, n2, m2⟩ := out2
          exact h2

theorem usageInv_stageReports {F : SourceKind → List Json}
    (res : Except FetchErr Json) (m : UsageMap)
    (h : UsageInv m (updF F .reports [])) :
    UsageInv (stageReports res m).2.2.2 (updF F .reports (stageReports res m).1) := by
  cases res with
  | error e => exact h
  | ok body =>
    rw [stageReports]
    cases hsb : stageBody .reports repProvName repNamesOf ["objects".data, "results".data]
        body [] m with
    | none => exact h
    | some out =>
      have h1 := usageInv_stageBody (F := F) .reports repProvName repNamesOf
        ["objects".data, "results".data] body [] m out h hsb
      obtain ⟨props, n, m'⟩ := out
      exact h1

/-- The per-kind identifier sets of a scan result. -/
def kindProps (r : UsageContext) : SourceKind → List Json
  | .workflows => r.workflowProperties
  | .forms => r.formProperties
  | .lists => r.listProperties
  | .pipelines => r.pipelineProperties
  | .reports => r.reportProperties
  | .emails => r.emailProperties

theorem usageInv_shift {m : UsageMap} {F : SourceKind → List Json} {k : SourceKind}
    (h : UsageInv m F) (hk : F k = []) : UsageInv m (updF F k []) := by
  refine usageInv_mono h ?_
  intro k' x hx
  rw [updF]
  by_cases h2 : k' = k
  · rw [if_pos h2]
    rw [h2, hk] at hx
    exact hx
  · rw [if_neg h2]
    exact hx

theorem usageInv_empty (F : SourceKind → List Json) : UsageInv ([] : UsageMap) F :=
  fun _ _ hpin => Option.noConfusion hpin

/-- C6: at every step (`addUsage` paired with the property-set `add`)
and for the final result of any scan, provenance lists are
duplicate-free and non-empty, and a field has a provenance entry for a
kind only if it belongs to that kind's identifier set. -/
theorem provenance_invariant :
    (∀ (m : UsageMap) (F : SourceKind → List Json) (k : SourceKind) (n src : Json)
      (props : List Json), UsageInv m (updF F k props) →
        UsageInv (addUsage m (jsKeyOf n) k src) (updF F k (setAdd props n))) ∧
    (∀ wfRes formsRes listsRes emailsRes pipeRes1 pipeRes2 repRes,
      UsageInv (fetchUsageContext wfRes formsRes listsRes emailsRes
          pipeRes1 pipeRes2 repRes).propertyUsageDetails
        (kindProps (fetchUsageContext wfRes formsRes listsRes emailsRes
          pipeRes1 pipeRes2 repRes))) := by
  constructor
  · intro m F k n src props h
    exact usageInv_addUsage h
  · intro wfRes formsRes listsRes emailsRes pipeRes1 pipeRes2 repRes
    have h0 : UsageInv ([] : UsageMap) (updF (fun _ => []) .workflows []) :=
      usageInv_empty _
    have h1 := usageInv_stagePaginated .workflows ("Workflows".data) wfProvName wfNamesOf
      wfRes [] h0
    have h2 := usageInv_stageForms formsRes _ (usageInv_shift h1 rfl)
    have h3 := usageInv_stagePaginated .lists ("Lists".data) listProvName listNamesOf
      listsRes _ (usageInv_shift h2 rfl)
    have h4 := usageInv_stagePipelines pipeRes1 pipeRes2 _ (usageInv_shift h3 rfl)
    have h5 := usageInv_stagePaginated .emails ("Marketing emails".data) emailProvName
      emailNamesOf emailsRes _ (usageInv_shift h4 rfl)
    have h6 := usageInv_stageReports repRes _ (usageInv_shift h5 rfl)
    refine usageInv_mono h6 ?_
    intro k x hx
    cases k <;>
      simp only [updF, fetchUsageContext, kindProps] at hx ⊢ <;>
      simpa using hx

/-- Demo inputs for the aggregator witnesses. -/
def wfDemo : Json :=
  Json.obj [("name".data, Json.str "My WF".data),
            ("filterProperty".data, Json.str "lead_status".data)]

def listDemo : Json :=
  Json.obj [("name".data, Json.str "My List".data),
            ("filters".data, Json.obj [("property".data, Json.str "industry".data)])]

def emailDemo : Json :=
  Json.obj [("name".data, Json.str "My Email".data),
            ("htmlBody".data, Json.str "hi \x7b\x7bcontact.favorite_color\x7d\x7d".data)]

def pipeDemo1 : Json :=
  Json.obj [("results".data, Json.arr [
    Json.obj [("label".data, Json.str "Sales".data),
              ("requiredProperty".data, Json.str "deal_stage_x".data)]])]

def pipeDemo2 : Json := Json.obj [("results".data, Json.arr [])]

def repDemo : Json :=
  Json.obj [("objects".data, Json.arr [
    Json.obj [("name".data, Json.str "My Report".data),
              ("reportProperty".data, Json.str "report_field".data)]])]

def feDemo : FetchErr := FetchErr.http ⟨some ("scope missing".data), "Request failed".data⟩

/-- Witness for `aggregator_partial_failure`: with a failing forms fetch
and five succeeding sources, exactly one warning names Forms and each
succeeding source's set carries its extracted identifier. -/
theorem aggregator_partial_failure_witness :
    (fetchUsageContext (.ok [wfDemo]) (.error feDemo) (.ok [listDemo]) (.ok [emailDemo])
        (.ok pipeDemo1) (.ok pipeDemo2) (.ok repDemo)).warnings =
      ["Forms: scope missing".data] ∧
    Json.str "lead_status".data ∈ (fetchUsageContext (.ok [wfDemo]) (.error feDemo)
      (.ok [listDemo]) (.ok [emailDemo]) (.ok pipeDemo1) (.ok pipeDemo2)
      (.ok repDemo)).workflowProperties ∧
    Json.str "favorite_color".data ∈ (fetchUsageContext (.ok [wfDemo]) (.error feDemo)
      (.ok [listDemo]) (.ok [emailDemo]) (.ok pipeDemo1) (.ok pipeDemo2)
      (.ok repDemo)).emailProperties ∧
    Json.str "deal_stage_x".data ∈ (fetchUsageContext (.ok [wfDemo]) (.error feDemo)
      (.ok [listDemo]) (.ok [emailDemo]) (.ok pipeDemo1) (.ok pipeDemo2)
      (.ok repDemo)).pipelineProperties ∧
    (fetchUsageContext (.ok [wfDemo]) (.error feDemo) (.ok [listDemo]) (.ok [emailDemo])
        (.ok pipeDemo1) (.ok pipeDemo2) (.ok repDemo)).formProperties = [] := by
  have h := aggregator_partial_failure [wfDemo] [listDemo] [emailDemo] feDemo
    pipeDemo1 pipeDemo2 repDemo
    [Json.obj [("label".data, Json.str "Sales".data),
               ("requiredProperty".data, Json.str "deal_stage_x".data)]] []
    [Json.obj [("name".data, Json.str "My Report".data),
               ("reportProperty".data, Json.str "report_field".data)]]
    (by decide) (by decide) (by decide) (by decide) (by decide) (by decide)
  refine ⟨?_, ?_, ?_, ?_, h.2.1⟩
  · rw [h.1]
    decide
  · exact (h.2.2.2.1 (Json.str "lead_status".data)).mpr ⟨wfDemo, by decide, by decide⟩
  · exact (h.2.2.2.2.2.1 (Json.str "favorite_color".data)).mpr ⟨emailDemo, by decide, by decide⟩
  · exact (h.2.2.2.2.2.2.1 (Json.str "deal_stage_x".data)).mpr
      ⟨Json.obj [("label".data, Json.str "Sales".data),
                 ("requiredProperty".data, Json.str "deal_stage_x".data)], by decide, by decide⟩

/-- Witness for `provenance_invariant`: in the demo scan the provenance
entry for `lead_status` under workflows is the duplicate-free singleton
with the workflow's name, and `lead_status` is in the workflows set. -/
theorem provenance_invariant_witness :
    ([Json.str "My WF".data] : List Json).Nodup ∧
    ([Json.str "My WF".data] : List Json) ≠ [] ∧
    "lead_status".data ∈ ((kindProps (fetchUsageContext (.ok [wfDemo]) (.error feDemo)
      (.ok [listDemo]) (.ok [emailDemo]) (.ok pipeDemo1) (.ok pipeDemo2)
      (.ok repDemo)) .workflows).map jsKeyOf) :=
  provenance_invariant.2 (.ok [wfDemo]) (.error feDemo) (.ok [listDemo]) (.ok [emailDemo])
    (.ok pipeDemo1) (.ok pipeDemo2) (.ok repDemo)
    ("lead_status".data) [(SourceKind.workflows, [Json.str "My WF".data])] (by decide)
    SourceKind.workflows [Json.str "My WF".data] (by decide)

/-! ### Lemmas about the sanitizer -/

theorem isNameChar_arith {c : Char} (h : isNameChar c = true) :
    (97 ≤ c.toNat ∧ c.toNat ≤ 122) ∨ (48 ≤ c.toNat ∧ c.toNat ≤ 57) ∨ c.toNat = 95 := by
  simp [isNameChar, isLowerAlpha, isDigitCh, Bool.or_eq_true, Bool.and_eq_true,
    decide_eq_true_eq] at h
  omega

theorem isJsWs_arith {c : Char} (h : isJsWs c = true) :
    (9 ≤ c.toNat ∧ c.toNat ≤ 13) ∨ c.toNat = 32 ∨ c.toNat = 160 ∨
    c.toNat = 0x1680 ∨ (0x2000 ≤ c.toNat ∧ c.toNat ≤ 0x200a) ∨
    c.toNat = 0x2028 ∨ c.toNat = 0x2029 ∨ c.toNat = 0x202f ∨
    c.toNat = 0x205f ∨ c.toNat = 0x3000 ∨ c.toNat = 0xfeff := by
  simp [isJsWs, Bool.or_eq_true, Bool.and_eq_true, decide_eq_true_eq] at h
  omega

theorem not_upper_arith {c : Char} (h : ¬ (65 ≤ c.toNat ∧ c.toNat ≤ 90)) :
    isUpperAlpha c = false := by
  simp [isUpperAlpha, Bool.and_eq_true, decide_eq_true_eq]
  omega

theorem jsToLower_nameChar {c : Char} (h : isNameChar c = true) : jsToLower c = c := by
  have harith := isNameChar_arith h
  rw [jsToLower, not_upper_arith (by omega)]
  simp

theorem jsToLower_ws {c : Char} (h : isJsWs c = true) : jsToLower c = c := by
  have harith := isJsWs_arith h
  rw [jsToLower, not_upper_arith (by omega)]
  simp

theorem not_ws_of_nameChar {c : Char} (h : isNameChar c = true) : isJsWs c = false := by
  have h1 := isNameChar_arith h
  cases h2 : isJsWs c with
  | false => rfl
  | true => exact absurd (isJsWs_arith h2) (by omega)

theorem map_eq_self_of_fixed {f : α → α} {l : List α} (h : ∀ c ∈ l, f c = c) :
    l.map f = l := by
  induction l with
  | nil => rfl
  | cons c t ih =>
    rw [List.map_cons, h c (List.mem_cons_self c t),
      ih (fun x hx => h x (List.mem_cons_of_mem c hx))]

theorem dropWhile_eq_self_of_all_not (p : α → Bool) (l : List α)
    (h : ∀ c ∈ l, p c = false) : l.dropWhile p = l := by
  cases l with
  | nil => rfl
  | cons c t => rw [List.dropWhile, h c (List.mem_cons_self c t)]

theorem dropWhile_eq_nil_of_all (p : α → Bool) (l : List α)
    (h : ∀ c ∈ l, p c = true) : l.dropWhile p = [] := by
  induction l with
  | nil => rfl
  | cons c t ih =>
    rw [List.dropWhile, h c (List.mem_cons_self c t)]
    exact ih (fun x hx => h x (List.mem_cons_of_mem c hx))

theorem jsTrim_eq_self {s : List Char} (h : ∀ c ∈ s, isJsWs c = false) : jsTrim s = s := by
  rw [jsTrim, dropWhile_eq_self_of_all_not _ _ h,
    dropWhile_eq_self_of_all_not _ _ (fun c hc => h c (List.mem_reverse.mp hc)),
    List.reverse_reverse]

theorem jsTrim_eq_nil_of_all_ws {s : List Char} (h : ∀ c ∈ s, isJsWs c = true) :
    jsTrim s = [] := by
  rw [jsTrim, dropWhile_eq_nil_of_all _ _ h]
  rfl

theorem collapseWs_eq_self {l : List Char} (h : ∀ c ∈ l, isJsWs c = false) :
    collapseWsUnderscore l = l := by
  induction l with
  | nil => rfl
  | cons c t ih =>
    simp only [collapseWsUnderscore, h c (List.mem_cons_self c t), Bool.false_eq_true, if_false]
    exact congrArg (c :: ·) (ih (fun x hx => h x (List.mem_cons_of_mem c hx)))

theorem toInternalName_all_nameChar (L : List Char) :
    ∀ c ∈ toInternalName L, isNameChar c = true := by
  intro c hc
  rw [toInternalName] at hc
  have hc2 := List.mem_of_mem_take hc
  set name := (collapseWsUnderscore (jsTrim (L.map jsToLower))).filter isNameChar with hname
  by_cases hd : startsWithDigit name = true
  · rw [if_pos hd] at hc2
    rcases List.mem_cons.mp hc2 with h | h
    · subst h; decide
    rcases List.mem_cons.mp h with h | h
    · subst h; decide
    · exact (List.mem_filter.mp h).2
  · rw [if_neg hd] at hc2
    exact (List.mem_filter.mp hc2).2

theorem toInternalName_head_not_digit (L : List Char) (c : Char) (rest : List Char)
    (h : toInternalName L = c :: rest) : isDigitCh c = false := by
  rw [toInternalName] at h
  set name := (collapseWsUnderscore (jsTrim (L.map jsToLower))).filter isNameChar with hname
  by_cases hd : startsWithDigit name = true
  · rw [if_pos hd] at h
    have hcp : c = 'p' := by
      have := congrArg (List.head? ·) h
      simpa using this.symm
    subst hcp; decide
  · rw [if_neg hd] at h
    cases hn : name with
    | nil => rw [hn] at h; simp at h
    | cons c0 t0 =>
      rw [hn] at h hd
      have hc0 : c = c0 := by
        have := congrArg (List.head? ·) h
        simpa using this.symm
      subst hc0
      simpa [startsWithDigit] using hd

theorem toInternalName_length_le (L : List Char) : (toInternalName L).length ≤ 250 := by
  rw [toInternalName]
  exact List.length_take_le _ _

theorem toInternalName_of_all_ws (L : List Char) (h : ∀ c ∈ L, isJsWs c = true) :
    toInternalName L = [] := by
  have hmap : L.map jsToLower = L :=
    map_eq_self_of_fixed (fun c hc => jsToLower_ws (h c hc))
  rw [toInternalName, hmap, jsTrim_eq_nil_of_all_ws h]
  rfl

theorem toInternalName_startsWithDigit_false (L : List Char) :
    startsWithDigit (toInternalName L) = false := by
  cases h : toInternalName L with
  | nil => rfl
  | cons c t => simpa [startsWithDigit] using toInternalName_head_not_digit L c t h

/-- C7: for every label, the sanitizer's output contains only `[a-z0-9_]`,
never starts with a digit when non-empty, has length at most 250, and
whitespace-only input yields the empty string. -/
theorem sanitizer_safety (L : List Char) :
    (∀ c ∈ toInternalName L, isNameChar c = true) ∧
    (∀ c rest, toInternalName L = c :: rest → isDigitCh c = false) ∧
    (toInternalName L).length ≤ 250 ∧
    ((∀ c ∈ L, isJsWs c = true) → toInternalName L = []) :=
  ⟨toInternalName_all_nameChar L,
   fun c rest h => toInternalName_head_not_digit L c rest h,
   toInternalName_length_le L,
   toInternalName_of_all_ws L⟩

/-- Witness for `sanitizer_safety` at concrete inputs. -/
theorem sanitizer_safety_witness :
    isDigitCh 'p' = false ∧ toInternalName "  \t ".data = [] :=
  ⟨(sanitizer_safety "9a".data).2.1 'p' ('_' :: '9' :: 'a' :: [])
      (by decide),
   (sanitizer_safety "  \t ".data).2.2.2 (by decide)⟩

/-- C8: the sanitizer is idempotent. -/
theorem sanitizer_idempotent (L : List Char) :
    toInternalName (toInternalName L) = toInternalName L := by
  have hall := toInternalName_all_nameChar L
  have hmap : (toInternalName L).map jsToLower = toInternalName L :=
    map_eq_self_of_fixed (fun c hc => jsToLower_nameChar (hall c hc))
  have hws : ∀ c ∈ toInternalName L, isJsWs c = false :=
    fun c hc => not_ws_of_nameChar (hall c hc)
  conv_lhs => rw [toInternalName]
  rw [hmap, jsTrim_eq_self hws, collapseWs_eq_self hws,
    List.filter_eq_self.mpr hall, toInternalName_startsWithDigit_false L]
  simp only [Bool.false_eq_true, if_false]
  exact List.take_of_length_le (toInternalName_length_le L)

/-! ### Lemmas about the option parser -/

theorem jsTrim_eq_nil_all_ws {s : List Char} (h : jsTrim s = []) :
    ∀ c ∈ s, isJsWs c = true := by
  rw [jsTrim] at h
  have h2 : (s.dropWhile isJsWs).reverse.dropWhile isJsWs = [] := by
    cases he : (s.dropWhile isJsWs).reverse.dropWhile isJsWs with
    | nil => rfl
    | cons a t => rw [he] at h; simp at h
  have h3 : ∀ c ∈ (s.dropWhile isJsWs).reverse, isJsWs c = true := by
    intro c hc
    exact List.dropWhile_eq_nil_iff.mp h2 c hc
  have h4 : ∀ c ∈ s.dropWhile isJsWs, isJsWs c = true := by
    intro c hc
    exact h3 c (List.mem_reverse.mpr hc)
  intro c hc
  rw [← List.takeWhile_append_dropWhile (p := isJsWs) (l := s)] at hc
  rcases List.mem_append.mp hc with h5 | h5
  · exact List.mem_takeWhile_imp h5
  · exact h4 c h5

theorem splitSemi_no_sep {l : List Char} (h : ∀ c ∈ l, c ≠ ';') : splitSemi l = [l] := by
  induction l with
  | nil => rfl
  | cons c t ih =>
    rw [splitSemi, if_neg (h c (List.mem_cons_self c t)),
      ih (fun x hx => h x (List.mem_cons_of_mem c hx))]

/-- The body of `parseOptions` after the empty-input guard: split, trim,
drop empty pieces, build options indexed by post-filter position. -/
def parsedOptionPieces (s : List Char) : List (List Char) :=
  ((splitSemi s).map jsTrim).filter (fun p => !p.isEmpty)

theorem parseOptions_eq (s : List Char) :
    parseOptions s = (parsedOptionPieces s).mapIdx
      (fun i lab =>
        { label := lab
          value := if (toInternalName lab).isEmpty then optionFallback i else toInternalName lab
          displayOrder := i
          hidden := false }) := by
  rw [parseOptions, parsedOptionPieces]
  by_cases hg : (s.isEmpty || (jsTrim s).isEmpty) = true
  · rw [if_pos hg]
    rcases Bool.or_eq_true _ _ |>.mp hg with he | he
    · have : s = [] := by simpa [List.isEmpty_iff] using he
      subst this
      rfl
    · have htr : jsTrim s = [] := by simpa [List.isEmpty_iff] using he
      have hws := jsTrim_eq_nil_all_ws htr
      have hnosep : ∀ c ∈ s, c ≠ ';' := by
        intro c hc hcs
        have := hws c hc
        rw [hcs] at this
        exact absurd this (by decide)
      rw [splitSemi_no_sep hnosep]
      simp [htr]
  · rw [if_neg hg]

/-- C9: the option parser splits on semicolons, trims, drops empty pieces,
and numbers the survivors by post-filter index, with the sanitized value
or the positional fallback. -/
theorem option_parser_spec :
    (∀ s : List Char, parseOptions s = (parsedOptionPieces s).mapIdx
      (fun i lab =>
        { label := lab
          value := if (toInternalName lab).isEmpty then optionFallback i else toInternalName lab
          displayOrder := i
          hidden := false })) ∧
    (∀ (s : List Char) (i : Nat) (o : ChoiceOption), (parseOptions s)[i]? = some o →
      o.displayOrder = i ∧ o.hidden = false ∧
      o.value = (if (toInternalName o.label).isEmpty then optionFallback i
                 else toInternalName o.label) ∧
      (parsedOptionPieces s)[i]? = some o.label) ∧
    parseOptions "A;B;;  C ;".data =
      [⟨"A".data, "a".data, 0, false⟩, ⟨"B".data, "b".data, 1, false⟩,
       ⟨"C".data, "c".data, 2, false⟩] ∧
    parseOptions [] = [] ∧
    parseOptions "  \t ".data = [] := by
  refine ⟨parseOptions_eq, ?_, by decide, by decide, by decide⟩
  intro s i o h
  rw [parseOptions_eq] at h
  rw [List.getElem?_mapIdx] at h
  cases hp : (parsedOptionPieces s)[i]? with
  | none => rw [hp] at h; simp at h
  | some lab =>
    rw [hp] at h
    simp only [Option.map_some'] at h
    cases h
    exact ⟨rfl, rfl, rfl, by simp⟩

/-- Witness for `option_parser_spec` at a concrete input. -/
theorem option_parser_spec_witness :
    (⟨"A".data, "a".data, 0, false⟩ : ChoiceOption).displayOrder = 0 ∧
    (⟨"A".data, "a".data, 0, false⟩ : ChoiceOption).hidden = false :=
  have h := option_parser_spec.2.1 "A;B".data 0 ⟨"A".data, "a".data, 0, false⟩ (by decide)
  ⟨h.1, h.2.1⟩

end BulkProps
